import Mathlib

/-!
Verification of the fidget repository's Stage1 source analyzer
(`jitfive/src/stage1.rs`) and the parallel octree worker
(`fidget/src/mesh/worker.rs`), against their natural-language
specification.

Machine integers are modelled as `Nat` with explicit masking where overflow
matters; Rust panics (`assert!`, `unwrap`, `unreachable!`, index
out-of-bounds) and non-termination are modelled as `Option.none`.
-/

set_option maxHeartbeats 1000000

namespace Fidget

/-- Modelled from the spec: `stage0.rs` is not among the sources.  A Stage0
node is an arithmetic or choice operation with 0-3 operand node indices;
operators partition into leaf (constant, variable), unary, binary arithmetic,
and choice (`min`/`max`, which carry a choice index `c`).  The `kind` payload
of unary/binary ops and the payloads of leaves do not affect grouping. -/
inductive Op where
  | const (value : Int)
  | var (v : Nat)
  | unary (kind : Nat) (a : Nat)
  | binary (kind : Nat) (a : Nat) (b : Nat)
  | min (a : Nat) (b : Nat) (c : Nat)
  | max (a : Nat) (b : Nat) (c : Nat)
deriving DecidableEq

/-- Modelled from the spec: operand node indices of an op, in order
(Rust `Op::iter_children`). -/
def Op.iter_children : Op → List Nat
  | .const _ => []
  | .var _ => []
  | .unary _ a => [a]
  | .binary _ a b => [a, b]
  | .min a b _ => [a, b]
  | .max a b _ => [a, b]

/-- `(a, b, c)` when the op is a choice (`min`/`max`) node, else `none`. -/
def Op.choiceArgs : Op → Option (Nat × Nat × Nat)
  | .min a b c => some (a, b, c)
  | .max a b c => some (a, b, c)
  | _ => none

/-- Modelled from the spec: Stage0 stores the node pool, the root node index,
the number of choice nodes and the variable table (`stage0.rs` is not among
the sources). -/
structure Stage0 where
  ops : List Op
  root : Nat
  num_choices : Nat
  vars : List String
deriving DecidableEq

/-- `Source` from `stage1.rs`: one condition under which a node is reached. -/
inductive Source where
  | Root
  | Left (c : Nat)
  | Right (c : Nat)
  | Both (c : Nat)
deriving DecidableEq

/-- Variant tag of a `Source`, in Rust declaration order. -/
def Source.srcTag : Source → Nat
  | .Root => 0
  | .Left _ => 1
  | .Right _ => 2
  | .Both _ => 3

/-- Choice-index payload of a `Source` (0 for `Root`). -/
def Source.srcIdx : Source → Nat
  | .Root => 0
  | .Left c => c
  | .Right c => c
  | .Both c => c

/-- The derived `Ord` on `Source`: by variant first, then by choice index. -/
def sourceLe (a b : Source) : Prop :=
  a.srcTag < b.srcTag ∨ (a.srcTag = b.srcTag ∧ a.srcIdx ≤ b.srcIdx)

instance : DecidableRel sourceLe := fun a b =>
  inferInstanceAs
    (Decidable (a.srcTag < b.srcTag ∨ (a.srcTag = b.srcTag ∧ a.srcIdx ≤ b.srcIdx)))

instance : IsTotal Source sourceLe := by
  constructor; intro a b; unfold sourceLe; omega

instance : IsTrans Source sourceLe := by
  constructor; intro a b c hab hbc; unfold sourceLe at *; omega

instance : IsAntisymm Source sourceLe := by
  constructor
  intro a b h1 h2
  have h3 : a.srcTag = b.srcTag ∧ a.srcIdx = b.srcIdx := by
    unfold sourceLe at *; omega
  cases a <;> cases b <;> simp_all [Source.srcTag, Source.srcIdx]

/-- One iteration of the loop body in `flatten` (`stage1.rs` lines 94-108),
applied to element `i` of the set; `input` is the whole set, used for the
counterpart-membership guards.  The result is the list of elements pushed to
`out`; `none` models the `unreachable!` (for `Root`) and `panic!` (for
`Both`) arms. -/
def flattenElem (input : List Source) : Source → Option (List Source)
  | .Left n =>
    some (if Source.Right n ∈ input then [Source.Both n] else [Source.Left n])
  | .Right n =>
    some (if Source.Left n ∈ input then [] else [Source.Right n])
  | .Root => none
  | .Both _ => none

/-- The `for i in input` loop of `flatten`, collecting pushed elements in
iteration order. -/
def flattenLoop (input : List Source) : List Source → Option (List Source)
  | [] => some []
  | i :: rest => do
    let hd ← flattenElem input i
    let tl ← flattenLoop input rest
    pure (hd ++ tl)

/-- `flatten` from `stage1.rs`: converts a source set (given as its sorted,
duplicate-free iteration order, the `BTreeSet` invariant) into a flat sorted
`Vec` suitable for use as a group key.  Merges `Left(n) + Right(n) =>
Both(n)` and drops all other sources if `Root` is found; panics (`none`) if
the set contains a `Both` element. -/
def flatten (input : List Source) : Option (List Source) :=
  if Source.Root ∈ input then some [Source.Root]
  else (flattenLoop input input).map (fun out => out.insertionSort sourceLe)

/-- `Group` from `stage1.rs`: choices which enable this group of nodes,
and the nodes in the group. -/
structure Group where
  choices : List Source
  nodes : List Nat
deriving DecidableEq

/-- `Stage1` from `stage1.rs`: ops annotated with their group index, the
root, the groups, and data copied from Stage0. -/
structure Stage1 where
  ops : List (Op × Nat)
  root : Nat
  groups : List Group
  num_choices : Nat
  vars : List String
deriving DecidableEq

/-- `recurse` from `stage1.rs`: recursively collects per-node sources into
the `out` array.  Inserts `source` into `out[node]`; at a `min`/`max` node
with choice `c` it recurses with `Left(c)` on the first operand and
`Right(c)` on the second, at every other node it propagates `source` to all
children.  `fuel` models the Rust call stack (the Rust function has no
memoization and terminates only because the graph is acyclic); `none` models
an out-of-bounds index panic or fuel exhaustion. -/
def recurse (t : Stage0) :
    Nat → Nat → Source → List (Finset Source) → Option (List (Finset Source))
  | 0, _, _, _ => none
  | fuel + 1, node, source, out =>
    if h : node < out.length then
      if h2 : node < t.ops.length then
        match t.ops.get ⟨node, h2⟩ with
        | Op.min a b c =>
          (recurse t fuel a (Source.Left c)
              (out.set node (insert source (out.get ⟨node, h⟩)))).bind
            (recurse t fuel b (Source.Right c))
        | Op.max a b c =>
          (recurse t fuel a (Source.Left c)
              (out.set node (insert source (out.get ⟨node, h⟩)))).bind
            (recurse t fuel b (Source.Right c))
        | op =>
          op.iter_children.foldlM (fun o ch => recurse t fuel ch source o)
            (out.set node (insert source (out.get ⟨node, h⟩)))
      else none
    else none

/-- The source-collection pass of `Stage1::from`: a vector of empty sets of
length `t.ops.len()`, filled by `recurse` from the root under `Root`. -/
def nodeSources (t : Stage0) (fuel : Nat) : Option (List (Finset Source)) :=
  recurse t fuel t.root Source.Root (List.replicate t.ops.length ∅)

/-- All operand indices of all nodes are in bounds. -/
abbrev InBounds (t : Stage0) : Prop :=
  ∀ n (h : n < t.ops.length),
    ∀ ch ∈ (t.ops.get ⟨n, h⟩).iter_children, ch < t.ops.length

/-- `rank` witnesses acyclicity of the Stage0 graph: every operand of a node
has strictly smaller rank. -/
abbrev DagRank (t : Stage0) (rank : Nat → Nat) : Prop :=
  ∀ n (h : n < t.ops.length),
    ∀ ch ∈ (t.ops.get ⟨n, h⟩).iter_children, rank ch < rank n

/-- `RFrom t n s m u`: starting the traversal at node `n` under source `s`,
node `m` is visited under source `u`.  This is the spec's description of the
top-down traversal: a `min`/`max` node with choice `c` contributes `Left c`
to its first operand and `Right c` to its second operand; every other node
propagates its incoming source unchanged to each of its children. -/
inductive RFrom (t : Stage0) : Nat → Source → Nat → Source → Prop where
  | here (n : Nat) (s : Source) : RFrom t n s n s
  | choiceLeft (n : Nat) (s : Source) (a b c m : Nat) (u : Source)
      (h : n < t.ops.length)
      (hop : (t.ops.get ⟨n, h⟩).choiceArgs = some (a, b, c))
      (hr : RFrom t a (Source.Left c) m u) : RFrom t n s m u
  | choiceRight (n : Nat) (s : Source) (a b c m : Nat) (u : Source)
      (h : n < t.ops.length)
      (hop : (t.ops.get ⟨n, h⟩).choiceArgs = some (a, b, c))
      (hr : RFrom t b (Source.Right c) m u) : RFrom t n s m u
  | child (n : Nat) (s : Source) (ch m : Nat) (u : Source)
      (h : n < t.ops.length)
      (hop : (t.ops.get ⟨n, h⟩).choiceArgs = none)
      (hch : ch ∈ (t.ops.get ⟨n, h⟩).iter_children)
      (hr : RFrom t ch s m u) : RFrom t n s m u

/-- `Reached t n s`: node `n` is visited under source `s` by the traversal
from the root under initial source `Root`. -/
def Reached (t : Stage0) (n : Nat) (s : Source) : Prop :=
  RFrom t t.root Source.Root n s

theorem getD_set_self {α : Type} (l : List α) {i : Nat} (v d : α)
    (h : i < l.length) : (l.set i v).getD i d = v := by
  induction l generalizing i with
  | nil => simp at h
  | cons a as ih =>
    cases i with
    | zero => simp
    | succ i => simpa using ih (by simpa using h)

theorem getD_set_ne {α : Type} (l : List α) {i j : Nat} (v d : α)
    (hij : i ≠ j) : (l.set i v).getD j d = l.getD j d := by
  induction l generalizing i j with
  | nil => simp
  | cons a as ih =>
    cases i with
    | zero =>
      cases j with
      | zero => exact absurd rfl hij
      | succ j => simp
    | succ i =>
      cases j with
      | zero => simp
      | succ j => simpa using ih (fun hc => hij (by simpa using hc))

theorem getD_replicate {α : Type} {n m : Nat} (x : α) :
    (List.replicate n x).getD m x = x := by
  induction n generalizing m with
  | zero => simp [List.replicate]
  | succ n ih =>
    cases m with
    | zero => simp [List.replicate]
    | succ m => simp [List.replicate]

theorem getD_eq_get {α : Type} (l : List α) (d : α) {i : Nat}
    (h : i < l.length) : l.getD i d = l.get ⟨i, h⟩ := by
  induction l generalizing i with
  | nil => simp at h
  | cons a as ih =>
    cases i with
    | zero => simp
    | succ i => simpa using ih (by simpa using h)

theorem mem_getD_set_insert {out : List (Finset Source)} {node : Nat}
    (h : node < out.length) (source : Source) (m : Nat) (u : Source)
    (hu : u ∈ out.getD m ∅) :
    u ∈ (out.set node (insert source (out.get ⟨node, h⟩))).getD m ∅ := by
  by_cases hm : m = node
  · subst hm
    rw [getD_set_self _ _ _ h]
    exact Finset.mem_insert_of_mem (by rwa [getD_eq_get _ _ h] at hu)
  · rwa [getD_set_ne _ _ _ (fun hc => hm hc.symm)]

theorem mem_getD_set_insert_elim {out : List (Finset Source)} {node : Nat}
    (h : node < out.length) {source : Source} {m : Nat} {u : Source}
    (hu : u ∈ (out.set node (insert source (out.get ⟨node, h⟩))).getD m ∅) :
    u ∈ out.getD m ∅ ∨ (m = node ∧ u = source) := by
  by_cases hm : m = node
  · subst hm
    rw [getD_set_self _ _ _ h] at hu
    rcases Finset.mem_insert.mp hu with h1 | h1
    · exact Or.inr ⟨rfl, h1⟩
    · exact Or.inl (by rwa [getD_eq_get _ _ h])
  · rw [getD_set_ne _ _ _ (fun hc => hm hc.symm)] at hu
    exact Or.inl hu

theorem recurse_mono {t : Stage0} :
    ∀ {fuel node source out out'},
      recurse t fuel node source out = some out' →
      out'.length = out.length ∧
        ∀ m u, u ∈ out.getD m ∅ → u ∈ out'.getD m ∅ := by
  intro fuel
  induction fuel with
  | zero =>
    intro node source out out' h
    simp [recurse] at h
  | succ fuel ih =>
    intro node source out out' h
    simp only [recurse] at h
    by_cases h1 : node < out.length
    swap
    · rw [dif_neg h1] at h; exact absurd h (by simp)
    rw [dif_pos h1] at h
    by_cases h2 : node < t.ops.length
    swap
    · rw [dif_neg h2] at h; exact absurd h (by simp)
    rw [dif_pos h2] at h
    split at h
    · rename_i a b c heq
      rw [Option.bind_eq_some] at h
      obtain ⟨o1, ho1, ho2⟩ := h
      obtain ⟨len1, mono1⟩ := ih ho1
      obtain ⟨len2, mono2⟩ := ih ho2
      refine ⟨by rw [len2, len1, List.length_set], ?_⟩
      intro m u hu
      exact mono2 m u (mono1 m u (mem_getD_set_insert h1 source m u hu))
    · rename_i a b c heq
      rw [Option.bind_eq_some] at h
      obtain ⟨o1, ho1, ho2⟩ := h
      obtain ⟨len1, mono1⟩ := ih ho1
      obtain ⟨len2, mono2⟩ := ih ho2
      refine ⟨by rw [len2, len1, List.length_set], ?_⟩
      intro m u hu
      exact mono2 m u (mono1 m u (mem_getD_set_insert h1 source m u hu))
    · rename_i op hmin hmax
      rcases hop : t.ops.get ⟨node, h2⟩ with v | v | ⟨k, a⟩ | ⟨k, a, b⟩ | ⟨a, b, c⟩ | ⟨a, b, c⟩
      rotate_left 4
      · exact absurd hop (fun hc => hmin a b c hc)
      · exact absurd hop (fun hc => hmax a b c hc)
      · rw [hop] at h
        simp only [Op.iter_children, List.foldlM_nil, Option.pure_def,
          Option.some.injEq] at h
        subst h
        exact ⟨by rw [List.length_set],
          fun m u hu => mem_getD_set_insert h1 source m u hu⟩
      · rw [hop] at h
        simp only [Op.iter_children, List.foldlM_nil, Option.pure_def,
          Option.some.injEq] at h
        subst h
        exact ⟨by rw [List.length_set],
          fun m u hu => mem_getD_set_insert h1 source m u hu⟩
      · rw [hop] at h
        simp only [Op.iter_children, List.foldlM_cons, List.foldlM_nil] at h
        cases ho1 : recurse t fuel a source
            (out.set node (insert source (out.get ⟨node, h1⟩))) with
        | none => rw [ho1] at h; simp at h
        | some o1 =>
          rw [ho1] at h
          simp only [Option.bind_eq_bind, Option.some_bind, Option.pure_def,
            Option.bind_some, Option.some.injEq] at h
          obtain ⟨len1, mono1⟩ := ih (ho1.trans (congrArg some h))
          refine ⟨by rw [len1, List.length_set], ?_⟩
          intro m u hu
          exact mono1 m u (mem_getD_set_insert h1 source m u hu)
      · rw [hop] at h
        simp only [Op.iter_children, List.foldlM_cons, List.foldlM_nil] at h
        cases ho1 : recurse t fuel a source
            (out.set node (insert source (out.get ⟨node, h1⟩))) with
        | none => rw [ho1] at h; simp at h
        | some o1 =>
          rw [ho1] at h
          simp only [Option.bind_eq_bind, Option.some_bind, Option.pure_def,
            Option.bind_some, Option.some.injEq] at h
          obtain ⟨len1, mono1⟩ := ih ho1
          obtain ⟨len2, mono2⟩ := ih h
          refine ⟨by rw [len2, len1, List.length_set], ?_⟩
          intro m u hu
          exact mono2 m u (mono1 m u (mem_getD_set_insert h1 source m u hu))

theorem recurse_self_mem {t : Stage0} {fuel node : Nat} {source : Source}
    {out out' : List (Finset Source)}
    (h : recurse t fuel node source out = some out') :
    source ∈ out'.getD node ∅ := by
  cases fuel with
  | zero => simp [recurse] at h
  | succ fuel =>
    simp only [recurse] at h
    by_cases h1 : node < out.length
    swap
    · rw [dif_neg h1] at h; exact absurd h (by simp)
    rw [dif_pos h1] at h
    by_cases h2 : node < t.ops.length
    swap
    · rw [dif_neg h2] at h; exact absurd h (by simp)
    rw [dif_pos h2] at h
    have hmem : source ∈
        (out.set node (insert source (out.get ⟨node, h1⟩))).getD node ∅ := by
      rw [getD_set_self _ _ _ h1]; exact Finset.mem_insert_self _ _
    split at h
    · rename_i a b c heq
      rw [Option.bind_eq_some] at h
      obtain ⟨o1, ho1, ho2⟩ := h
      exact (recurse_mono ho2).2 node source ((recurse_mono ho1).2 node source hmem)
    · rename_i a b c heq
      rw [Option.bind_eq_some] at h
      obtain ⟨o1, ho1, ho2⟩ := h
      exact (recurse_mono ho2).2 node source ((recurse_mono ho1).2 node source hmem)
    · rename_i op hmin hmax
      rcases hop : t.ops.get ⟨node, h2⟩ with v | v | ⟨k, a⟩ | ⟨k, a, b⟩ | ⟨a, b, c⟩ | ⟨a, b, c⟩
      rotate_left 4
      · exact absurd hop (fun hc => hmin a b c hc)
      · exact absurd hop (fun hc => hmax a b c hc)
      · rw [hop] at h
        simp only [Op.iter_children, List.foldlM_nil, Option.pure_def,
          Option.some.injEq] at h
        subst h; exact hmem
      · rw [hop] at h
        simp only [Op.iter_children, List.foldlM_nil, Option.pure_def,
          Option.some.injEq] at h
        subst h; exact hmem
      · rw [hop] at h
        simp only [Op.iter_children, List.foldlM_cons, List.foldlM_nil,
          Option.bind_eq_bind, Option.pure_def, Option.bind_some] at h
        exact (recurse_mono h).2 node source hmem
      · rw [hop] at h
        simp only [Op.iter_children, List.foldlM_cons, List.foldlM_nil,
          Option.bind_eq_bind, Option.pure_def, Option.bind_some] at h
        rw [Option.bind_eq_some] at h
        obtain ⟨o1, ho1, ho2⟩ := h
        exact (recurse_mono ho2).2 node source ((recurse_mono ho1).2 node source hmem)

theorem recurse_sound {t : Stage0} :
    ∀ {fuel node : Nat} {source : Source} {out out' : List (Finset Source)},
      recurse t fuel node source out = some out' →
      ∀ m u, u ∈ out'.getD m ∅ →
        u ∈ out.getD m ∅ ∨ RFrom t node source m u := by
  intro fuel
  induction fuel with
  | zero =>
    intro node source out out' h
    simp [recurse] at h
  | succ fuel ih =>
    intro node source out out' h
    simp only [recurse] at h
    by_cases h1 : node < out.length
    swap
    · rw [dif_neg h1] at h; exact absurd h (by simp)
    rw [dif_pos h1] at h
    by_cases h2 : node < t.ops.length
    swap
    · rw [dif_neg h2] at h; exact absurd h (by simp)
    rw [dif_pos h2] at h
    split at h
    · rename_i a b c heq
      rw [Option.bind_eq_some] at h
      obtain ⟨o1, ho1, ho2⟩ := h
      intro m u hu
      have hops : (t.ops.get ⟨node, h2⟩).choiceArgs = some (a, b, c) := by
        rw [heq]; rfl
      rcases ih ho2 m u hu with hu1 | hr
      · rcases ih ho1 m u hu1 with hu2 | hr
        · rcases mem_getD_set_insert_elim h1 hu2 with hu3 | ⟨hm, hU⟩
          · exact Or.inl hu3
          · subst hm; subst hU; exact Or.inr (RFrom.here _ _)
        · exact Or.inr (RFrom.choiceLeft node source a b c m u h2 hops hr)
      · exact Or.inr (RFrom.choiceRight node source a b c m u h2 hops hr)
    · rename_i a b c heq
      rw [Option.bind_eq_some] at h
      obtain ⟨o1, ho1, ho2⟩ := h
      intro m u hu
      have hops : (t.ops.get ⟨node, h2⟩).choiceArgs = some (a, b, c) := by
        rw [heq]; rfl
      rcases ih ho2 m u hu with hu1 | hr
      · rcases ih ho1 m u hu1 with hu2 | hr
        · rcases mem_getD_set_insert_elim h1 hu2 with hu3 | ⟨hm, hU⟩
          · exact Or.inl hu3
          · subst hm; subst hU; exact Or.inr (RFrom.here _ _)
        · exact Or.inr (RFrom.choiceLeft node source a b c m u h2 hops hr)
      · exact Or.inr (RFrom.choiceRight node source a b c m u h2 hops hr)
    · rename_i op hmin hmax
      rcases hop : t.ops.get ⟨node, h2⟩ with v | v | ⟨k, a⟩ | ⟨k, a, b⟩ | ⟨a, b, c⟩ | ⟨a, b, c⟩
      rotate_left 4
      · exact absurd hop (fun hc => hmin a b c hc)
      · exact absurd hop (fun hc => hmax a b c hc)
      · rw [hop] at h
        simp only [Op.iter_children, List.foldlM_nil, Option.pure_def,
          Option.some.injEq] at h
        subst h
        intro m u hu
        rcases mem_getD_set_insert_elim h1 hu with hu3 | ⟨hm, hU⟩
        · exact Or.inl hu3
        · subst hm; subst hU; exact Or.inr (RFrom.here _ _)
      · rw [hop] at h
        simp only [Op.iter_children, List.foldlM_nil, Option.pure_def,
          Option.some.injEq] at h
        subst h
        intro m u hu
        rcases mem_getD_set_insert_elim h1 hu with hu3 | ⟨hm, hU⟩
        · exact Or.inl hu3
        · subst hm; subst hU; exact Or.inr (RFrom.here _ _)
      · rw [hop] at h
        simp only [Op.iter_children, List.foldlM_cons, List.foldlM_nil,
          Option.bind_eq_bind, Option.pure_def, Option.bind_some] at h
        intro m u hu
        have hops : (t.ops.get ⟨node, h2⟩).choiceArgs = none := by rw [hop]; rfl
        have hch : a ∈ (t.ops.get ⟨node, h2⟩).iter_children := by
          rw [hop]; simp [Op.iter_children]
        rcases ih h m u hu with hu1 | hr
        · rcases mem_getD_set_insert_elim h1 hu1 with hu3 | ⟨hm, hU⟩
          · exact Or.inl hu3
          · subst hm; subst hU; exact Or.inr (RFrom.here _ _)
        · exact Or.inr (RFrom.child node source a m u h2 hops hch hr)
      · rw [hop] at h
        simp only [Op.iter_children, List.foldlM_cons, List.foldlM_nil,
          Option.bind_eq_bind, Option.pure_def, Option.bind_some] at h
        rw [Option.bind_eq_some] at h
        obtain ⟨o1, ho1, ho2⟩ := h
        intro m u hu
        have hops : (t.ops.get ⟨node, h2⟩).choiceArgs = none := by rw [hop]; rfl
        have hcha : a ∈ (t.ops.get ⟨node, h2⟩).iter_children := by
          rw [hop]; simp [Op.iter_children]
        have hchb : b ∈ (t.ops.get ⟨node, h2⟩).iter_children := by
          rw [hop]; simp [Op.iter_children]
        rcases ih ho2 m u hu with hu1 | hr
        · rcases ih ho1 m u hu1 with hu2 | hr
          · rcases mem_getD_set_insert_elim h1 hu2 with hu3 | ⟨hm, hU⟩
            · exact Or.inl hu3
            · subst hm; subst hU; exact Or.inr (RFrom.here _ _)
          · exact Or.inr (RFrom.child node source a m u h2 hops hcha hr)
        · exact Or.inr (RFrom.child node source b m u h2 hops hchb hr)

theorem recurse_complete {t : Stage0} {m : Nat} {u : Source} :
    ∀ {node : Nat} {source : Source}, RFrom t node source m u →
      ∀ (fuel : Nat) (out out' : List (Finset Source)),
        recurse t fuel node source out = some out' → u ∈ out'.getD m ∅ := by
  intro node source hr
  induction hr with
  | here n s =>
    intro fuel out out' h
    exact recurse_self_mem h
  | choiceLeft n s a b c m u hn hops hr ihr =>
    intro fuel out out' h
    cases fuel with
    | zero => simp [recurse] at h
    | succ fuel =>
      simp only [recurse] at h
      by_cases h1 : n < out.length
      swap
      · rw [dif_neg h1] at h; exact absurd h (by simp)
      rw [dif_pos h1] at h
      by_cases h2 : n < t.ops.length
      swap
      · rw [dif_neg h2] at h; exact absurd h (by simp)
      rw [dif_pos h2] at h
      have hops2 : (t.ops.get ⟨n, h2⟩).choiceArgs = some (a, b, c) := hops
      split at h
      · rename_i a' b' c' heq
        rw [heq] at hops2
        simp only [Op.choiceArgs, Option.some.injEq, Prod.mk.injEq] at hops2
        obtain ⟨ha, hb, hc⟩ := hops2
        subst ha; subst hb; subst hc
        rw [Option.bind_eq_some] at h
        obtain ⟨o1, ho1, ho2⟩ := h
        exact (recurse_mono ho2).2 m u (ihr fuel _ o1 ho1)
      · rename_i a' b' c' heq
        rw [heq] at hops2
        simp only [Op.choiceArgs, Option.some.injEq, Prod.mk.injEq] at hops2
        obtain ⟨ha, hb, hc⟩ := hops2
        subst ha; subst hb; subst hc
        rw [Option.bind_eq_some] at h
        obtain ⟨o1, ho1, ho2⟩ := h
        exact (recurse_mono ho2).2 m u (ihr fuel _ o1 ho1)
      · rename_i op hmin hmax
        rcases hop : t.ops.get ⟨n, h2⟩ with v | v | ⟨k, a'⟩ | ⟨k, a', b'⟩ | ⟨a', b', c'⟩ | ⟨a', b', c'⟩
        rotate_left 4
        · exact absurd hop (fun hc => hmin a' b' c' hc)
        · exact absurd hop (fun hc => hmax a' b' c' hc)
        all_goals rw [hop] at hops2; simp [Op.choiceArgs] at hops2
  | choiceRight n s a b c m u hn hops hr ihr =>
    intro fuel out out' h
    cases fuel with
    | zero => simp [recurse] at h
    | succ fuel =>
      simp only [recurse] at h
      by_cases h1 : n < out.length
      swap
      · rw [dif_neg h1] at h; exact absurd h (by simp)
      rw [dif_pos h1] at h
      by_cases h2 : n < t.ops.length
      swap
      · rw [dif_neg h2] at h; exact absurd h (by simp)
      rw [dif_pos h2] at h
      have hops2 : (t.ops.get ⟨n, h2⟩).choiceArgs = some (a, b, c) := hops
      split at h
      · rename_i a' b' c' heq
        rw [heq] at hops2
        simp only [Op.choiceArgs, Option.some.injEq, Prod.mk.injEq] at hops2
        obtain ⟨ha, hb, hc⟩ := hops2
        subst ha; subst hb; subst hc
        rw [Option.bind_eq_some] at h
        obtain ⟨o1, ho1, ho2⟩ := h
        exact ihr fuel o1 out' ho2
      · rename_i a' b' c' heq
        rw [heq] at hops2
        simp only [Op.choiceArgs, Option.some.injEq, Prod.mk.injEq] at hops2
        obtain ⟨ha, hb, hc⟩ := hops2
        subst ha; subst hb; subst hc
        rw [Option.bind_eq_some] at h
        obtain ⟨o1, ho1, ho2⟩ := h
        exact ihr fuel o1 out' ho2
      · rename_i op hmin hmax
        rcases hop : t.ops.get ⟨n, h2⟩ with v | v | ⟨k, a'⟩ | ⟨k, a', b'⟩ | ⟨a', b', c'⟩ | ⟨a', b', c'⟩
        rotate_left 4
        · exact absurd hop (fun hc => hmin a' b' c' hc)
        · exact absurd hop (fun hc => hmax a' b' c' hc)
        all_goals rw [hop] at hops2; simp [Op.choiceArgs] at hops2
  | child n s ch m u hn hops hch hr ihr =>
    intro fuel out out' h
    cases fuel with
    | zero => simp [recurse] at h
    | succ fuel =>
      simp only [recurse] at h
      by_cases h1 : n < out.length
      swap
      · rw [dif_neg h1] at h; exact absurd h (by simp)
      rw [dif_pos h1] at h
      by_cases h2 : n < t.ops.length
      swap
      · rw [dif_neg h2] at h; exact absurd h (by simp)
      rw [dif_pos h2] at h
      have hops2 : (t.ops.get ⟨n, h2⟩).choiceArgs = none := hops
      have hch2 : ch ∈ (t.ops.get ⟨n, h2⟩).iter_children := hch
      split at h
      · rename_i a' b' c' heq
        rw [heq] at hops2; simp [Op.choiceArgs] at hops2
      · rename_i a' b' c' heq
        rw [heq] at hops2; simp [Op.choiceArgs] at hops2
      · rename_i op hmin hmax
        rcases hop : t.ops.get ⟨n, h2⟩ with v | v | ⟨k, a'⟩ | ⟨k, a', b'⟩ | ⟨a', b', c'⟩ | ⟨a', b', c'⟩
        rotate_left 4
        · exact absurd hop (fun hc => hmin a' b' c' hc)
        · exact absurd hop (fun hc => hmax a' b' c' hc)
        · rw [hop] at hch2; simp [Op.iter_children] at hch2
        · rw [hop] at hch2; simp [Op.iter_children] at hch2
        · rw [hop] at hch2
          simp only [Op.iter_children, List.mem_singleton] at hch2
          subst hch2
          rw [hop] at h
          simp only [Op.iter_children, List.foldlM_cons, List.foldlM_nil,
            Option.bind_eq_bind, Option.pure_def, Option.bind_some] at h
          exact ihr fuel _ out' h
        · rw [hop] at hch2
          simp only [Op.iter_children, List.mem_cons, List.mem_singleton,
            List.not_mem_nil, or_false] at hch2
          rw [hop] at h
          simp only [Op.iter_children, List.foldlM_cons, List.foldlM_nil,
            Option.bind_eq_bind, Option.pure_def, Option.bind_some] at h
          rw [Option.bind_eq_some] at h
          obtain ⟨o1, ho1, ho2⟩ := h
          rcases hch2 with hcha | hchb
          · subst hcha
            exact (recurse_mono ho2).2 m u (ihr fuel _ o1 ho1)
          · subst hchb
            exact ihr fuel o1 out' ho2

theorem RFrom_shape {t : Stage0} {n : Nat} {s : Source} {m : Nat} {u : Source}
    (h : RFrom t n s m u) :
    u = s ∨ (∃ c, u = Source.Left c) ∨ (∃ c, u = Source.Right c) := by
  induction h with
  | here n s => exact Or.inl rfl
  | choiceLeft n s a b c m u hn hops hr ihr =>
    rcases ihr with h1 | h1 | h1
    · exact Or.inr (Or.inl ⟨c, h1⟩)
    · exact Or.inr (Or.inl h1)
    · exact Or.inr (Or.inr h1)
  | choiceRight n s a b c m u hn hops hr ihr =>
    rcases ihr with h1 | h1 | h1
    · exact Or.inr (Or.inr ⟨c, h1⟩)
    · exact Or.inr (Or.inl h1)
    · exact Or.inr (Or.inr h1)
  | child n s ch m u hn hops hch hr ihr => exact ihr

theorem recurse_total {t : Stage0} {rank : Nat → Nat}
    (hb : InBounds t) (hrk : DagRank t rank) :
    ∀ (fuel node : Nat) (source : Source) (out : List (Finset Source)),
      out.length = t.ops.length → node < t.ops.length → rank node < fuel →
      ∃ out', recurse t fuel node source out = some out' := by
  intro fuel
  induction fuel with
  | zero =>
    intro node source out hlen hn hf
    omega
  | succ fuel ih =>
    intro node source out hlen hn hf
    have h1 : node < out.length := by rw [hlen]; exact hn
    simp only [recurse]
    rw [dif_pos h1, dif_pos hn]
    rcases hop : t.ops.get ⟨node, hn⟩ with v | v | ⟨k, a⟩ | ⟨k, a, b⟩ | ⟨a, b, c⟩ | ⟨a, b, c⟩
    · simp only [Op.iter_children, List.foldlM_nil, Option.pure_def]
      exact ⟨_, rfl⟩
    · simp only [Op.iter_children, List.foldlM_nil, Option.pure_def]
      exact ⟨_, rfl⟩
    · have hmem : a ∈ (t.ops.get ⟨node, hn⟩).iter_children := by
        rw [hop]; simp [Op.iter_children]
      have ha_lt : a < t.ops.length := hb node hn a hmem
      have ha_rk : rank a < fuel := by
        have := hrk node hn a hmem; omega
      obtain ⟨o1, ho1⟩ :=
        ih a source (out.set node (insert source (out.get ⟨node, h1⟩)))
          (by rw [List.length_set, hlen]) ha_lt ha_rk
      simp only [Op.iter_children, List.foldlM_cons, List.foldlM_nil,
        Option.bind_eq_bind, Option.pure_def, Option.bind_some]
      exact ⟨o1, ho1⟩
    · have hmema : a ∈ (t.ops.get ⟨node, hn⟩).iter_children := by
        rw [hop]; simp [Op.iter_children]
      have hmemb : b ∈ (t.ops.get ⟨node, hn⟩).iter_children := by
        rw [hop]; simp [Op.iter_children]
      have ha_lt : a < t.ops.length := hb node hn a hmema
      have hb_lt : b < t.ops.length := hb node hn b hmemb
      have ha_rk : rank a < fuel := by
        have := hrk node hn a hmema; omega
      have hb_rk : rank b < fuel := by
        have := hrk node hn b hmemb; omega
      obtain ⟨o1, ho1⟩ :=
        ih a source (out.set node (insert source (out.get ⟨node, h1⟩)))
          (by rw [List.length_set, hlen]) ha_lt ha_rk
      obtain ⟨o2, ho2⟩ :=
        ih b source o1 (by rw [(recurse_mono ho1).1, List.length_set, hlen])
          hb_lt hb_rk
      simp only [Op.iter_children, List.foldlM_cons, List.foldlM_nil,
        Option.bind_eq_bind, Option.pure_def, Option.bind_some]
      refine ⟨o2, ?_⟩
      rw [ho1]
      simp only [Option.some_bind]
      exact ho2
    · have hmema : a ∈ (t.ops.get ⟨node, hn⟩).iter_children := by
        rw [hop]; simp [Op.iter_children]
      have hmemb : b ∈ (t.ops.get ⟨node, hn⟩).iter_children := by
        rw [hop]; simp [Op.iter_children]
      have ha_lt : a < t.ops.length := hb node hn a hmema
      have hb_lt : b < t.ops.length := hb node hn b hmemb
      have ha_rk : rank a < fuel := by
        have := hrk node hn a hmema; omega
      have hb_rk : rank b < fuel := by
        have := hrk node hn b hmemb; omega
      obtain ⟨o1, ho1⟩ :=
        ih a (Source.Left c) (out.set node (insert source (out.get ⟨node, h1⟩)))
          (by rw [List.length_set, hlen]) ha_lt ha_rk
      obtain ⟨o2, ho2⟩ :=
        ih b (Source.Right c) o1
          (by rw [(recurse_mono ho1).1, List.length_set, hlen])
          hb_lt hb_rk
      refine ⟨o2, ?_⟩
      show (recurse t fuel a (Source.Left c)
          (out.set node (insert source (out.get ⟨node, h1⟩)))).bind
        (recurse t fuel b (Source.Right c)) = some o2
      rw [ho1]
      simp only [Option.some_bind]
      exact ho2
    · have hmema : a ∈ (t.ops.get ⟨node, hn⟩).iter_children := by
        rw [hop]; simp [Op.iter_children]
      have hmemb : b ∈ (t.ops.get ⟨node, hn⟩).iter_children := by
        rw [hop]; simp [Op.iter_children]
      have ha_lt : a < t.ops.length := hb node hn a hmema
      have hb_lt : b < t.ops.length := hb node hn b hmemb
      have ha_rk : rank a < fuel := by
        have := hrk node hn a hmema; omega
      have hb_rk : rank b < fuel := by
        have := hrk node hn b hmemb; omega
      obtain ⟨o1, ho1⟩ :=
        ih a (Source.Left c) (out.set node (insert source (out.get ⟨node, h1⟩)))
          (by rw [List.length_set, hlen]) ha_lt ha_rk
      obtain ⟨o2, ho2⟩ :=
        ih b (Source.Right c) o1
          (by rw [(recurse_mono ho1).1, List.length_set, hlen])
          hb_lt hb_rk
      refine ⟨o2, ?_⟩
      show (recurse t fuel a (Source.Left c)
          (out.set node (insert source (out.get ⟨node, h1⟩)))).bind
        (recurse t fuel b (Source.Right c)) = some o2
      rw [ho1]
      simp only [Option.some_bind]
      exact ho2

/-- Full characterization of a successful source-collection run: a node's
set holds exactly the sources under which the traversal visits it. -/
theorem nodeSources_char {t : Stage0} {fuel : Nat}
    {srcs : List (Finset Source)} (h : nodeSources t fuel = some srcs)
    (n : Nat) (u : Source) : u ∈ srcs.getD n ∅ ↔ Reached t n u := by
  constructor
  · intro hu
    rcases recurse_sound h n u hu with h1 | h1
    · rw [getD_replicate] at h1
      exact absurd h1 (Finset.not_mem_empty u)
    · exact h1
  · intro hr
    exact recurse_complete hr fuel _ srcs h

/-- No `Both` source is ever produced by the traversal from the root. -/
theorem Reached_not_both {t : Stage0} {n : Nat} {u : Source}
    (h : Reached t n u) : ∀ c, u ≠ Source.Both c := by
  intro c hc
  rcases RFrom_shape h with h1 | ⟨d, h1⟩ | ⟨d, h1⟩ <;> simp [hc] at h1

/-- The claim's description of the normalized output set: `Both c` stands
for a `Left c`/`Right c` pair, a lone `Left c` or `Right c` is kept as-is,
and `Root` never appears (the `Root`-containing case returns early). -/
def flattenSpecMem (input : List Source) : Source → Prop
  | .Root => False
  | .Left c => Source.Left c ∈ input ∧ Source.Right c ∉ input
  | .Right c => Source.Right c ∈ input ∧ Source.Left c ∉ input
  | .Both c => Source.Left c ∈ input ∧ Source.Right c ∈ input

/-- The element of the input a flattened element originates from. -/
def srcOrigin : Source → Source
  | .Both c => .Left c
  | s => s

theorem flatten_root {input : List Source} (h : Source.Root ∈ input) :
    flatten input = some [Source.Root] := by
  unfold flatten; rw [if_pos h]

theorem flattenLoop_eq_some_of_forall {input l : List Source}
    (h : ∀ i ∈ l, (flattenElem input i).isSome) :
    ∃ r, flattenLoop input l = some r := by
  induction l with
  | nil => exact ⟨[], rfl⟩
  | cons i rest ih =>
    obtain ⟨hd, hhd⟩ := Option.isSome_iff_exists.mp (h i (by simp))
    obtain ⟨tl, htl⟩ := ih (fun j hj => h j (by simp [hj]))
    exact ⟨hd ++ tl, by simp [flattenLoop, hhd, htl]⟩

theorem flattenLoop_mem {input l r : List Source}
    (h : flattenLoop input l = some r) :
    ∀ u, u ∈ r ↔ ∃ i ∈ l, ∃ ri, flattenElem input i = some ri ∧ u ∈ ri := by
  induction l generalizing r with
  | nil =>
    simp only [flattenLoop, Option.some.injEq] at h
    subst h; simp
  | cons i rest ih =>
    simp only [flattenLoop, Option.bind_eq_bind, Option.pure_def] at h
    rw [Option.bind_eq_some] at h
    obtain ⟨hd, hhd, h⟩ := h
    rw [Option.bind_eq_some] at h
    obtain ⟨tl, htl, h⟩ := h
    simp only [Option.some.injEq] at h
    subst h
    intro u
    constructor
    · intro hu
      rcases List.mem_append.mp hu with h1 | h1
      · exact ⟨i, by simp, hd, hhd, h1⟩
      · obtain ⟨j, hj, rj, hrj, hurj⟩ := (ih htl u).mp h1
        exact ⟨j, by simp [hj], rj, hrj, hurj⟩
    · rintro ⟨j, hj, rj, hrj, hurj⟩
      rcases List.mem_cons.mp hj with rfl | hj2
      · rw [hhd] at hrj
        simp only [Option.some.injEq] at hrj
        subst hrj
        exact List.mem_append.mpr (Or.inl hurj)
      · exact List.mem_append.mpr (Or.inr ((ih htl u).mpr ⟨j, hj2, rj, hrj, hurj⟩))

theorem flattenLoop_origin_sublist {input l r : List Source}
    (h : flattenLoop input l = some r) :
    (r.map srcOrigin).Sublist l := by
  induction l generalizing r with
  | nil =>
    simp only [flattenLoop, Option.some.injEq] at h
    subst h; simp
  | cons i rest ih =>
    simp only [flattenLoop, Option.bind_eq_bind, Option.pure_def] at h
    rw [Option.bind_eq_some] at h
    obtain ⟨hd, hhd, h⟩ := h
    rw [Option.bind_eq_some] at h
    obtain ⟨tl, htl, h⟩ := h
    simp only [Option.some.injEq] at h
    subst h
    rw [List.map_append]
    rcases i with _ | c | c | c
    · simp [flattenElem] at hhd
    · simp only [flattenElem, Option.some.injEq] at hhd
      by_cases hc : Source.Right c ∈ input
      · rw [if_pos hc] at hhd
        subst hhd
        exact List.Sublist.cons₂ _ (ih htl)
      · rw [if_neg hc] at hhd
        subst hhd
        exact List.Sublist.cons₂ _ (ih htl)
    · simp only [flattenElem, Option.some.injEq] at hhd
      by_cases hc : Source.Left c ∈ input
      · rw [if_pos hc] at hhd
        subst hhd
        exact List.Sublist.cons _ (ih htl)
      · rw [if_neg hc] at hhd
        subst hhd
        exact List.Sublist.cons₂ _ (ih htl)
    · simp [flattenElem] at hhd

theorem flattenLoop_none_of_both {input l : List Source} {c : Nat}
    (h : Source.Both c ∈ l) : flattenLoop input l = none := by
  induction l with
  | nil => cases h
  | cons i rest ih =>
    rcases List.mem_cons.mp h with rfl | h2
    · rfl
    · cases hfe : flattenElem input i with
      | none => simp [flattenLoop, hfe]
      | some hd => simp [flattenLoop, hfe, ih h2]

theorem flatten_none_of_both {input : List Source} {c : Nat}
    (hroot : Source.Root ∉ input) (h : Source.Both c ∈ input) :
    flatten input = none := by
  unfold flatten
  rw [if_neg hroot, flattenLoop_none_of_both h]
  rfl

theorem flatten_eq_some {input : List Source} (hroot : Source.Root ∉ input)
    (hboth : ∀ c, Source.Both c ∉ input) :
    ∃ out, flatten input = some out := by
  have hall : ∀ i ∈ input, (flattenElem input i).isSome := by
    intro i hi
    rcases i with _ | c | c | c
    · exact absurd hi hroot
    · simp [flattenElem]
    · simp [flattenElem]
    · exact absurd hi (hboth c)
  obtain ⟨r, hr⟩ := flattenLoop_eq_some_of_forall hall
  refine ⟨r.insertionSort sourceLe, ?_⟩
  unfold flatten
  rw [if_neg hroot, hr]
  rfl

theorem flatten_mem {input out : List Source} (h : flatten input = some out)
    (hroot : Source.Root ∉ input) :
    ∀ u, u ∈ out ↔ flattenSpecMem input u := by
  unfold flatten at h
  rw [if_neg hroot] at h
  cases hl : flattenLoop input input with
  | none => rw [hl] at h; simp at h
  | some r =>
    rw [hl] at h
    simp only [Option.map_some', Option.some.injEq] at h
    subst h
    intro u
    rw [(List.perm_insertionSort sourceLe r).mem_iff]
    rw [flattenLoop_mem hl u]
    constructor
    · rintro ⟨i, hi, ri, hri, huri⟩
      rcases i with _ | c | c | c
      · exact absurd hi hroot
      · simp only [flattenElem, Option.some.injEq] at hri
        subst hri
        by_cases hc : Source.Right c ∈ input
        · rw [if_pos hc] at huri
          simp only [List.mem_singleton] at huri
          subst huri
          exact ⟨hi, hc⟩
        · rw [if_neg hc] at huri
          simp only [List.mem_singleton] at huri
          subst huri
          exact ⟨hi, hc⟩
      · simp only [flattenElem, Option.some.injEq] at hri
        subst hri
        by_cases hc : Source.Left c ∈ input
        · rw [if_pos hc] at huri
          simp at huri
        · rw [if_neg hc] at huri
          simp only [List.mem_singleton] at huri
          subst huri
          exact ⟨hi, hc⟩
      · simp [flattenElem] at hri
    · intro hu
      rcases u with _ | c | c | c
      · exact hu.elim
      · obtain ⟨h1, h2⟩ := hu
        exact ⟨Source.Left c, h1, [Source.Left c],
          by simp [flattenElem, if_neg h2], by simp⟩
      · obtain ⟨h1, h2⟩ := hu
        exact ⟨Source.Right c, h1, [Source.Right c],
          by simp [flattenElem, if_neg h2], by simp⟩
      · obtain ⟨h1, h2⟩ := hu
        exact ⟨Source.Left c, h1, [Source.Both c],
          by simp [flattenElem, if_pos h2], by simp⟩

theorem flatten_sorted {input out : List Source}
    (h : flatten input = some out) : out.Sorted sourceLe := by
  unfold flatten at h
  split at h
  · simp only [Option.some.injEq] at h
    subst h
    exact List.sorted_singleton _
  · cases hl : flattenLoop input input with
    | none => rw [hl] at h; simp at h
    | some r =>
      rw [hl] at h
      simp only [Option.map_some', Option.some.injEq] at h
      subst h
      exact List.sorted_insertionSort sourceLe r

theorem flatten_nodup {input out : List Source} (h : flatten input = some out)
    (hnd : input.Nodup) : out.Nodup := by
  unfold flatten at h
  split at h
  · simp only [Option.some.injEq] at h
    subst h
    simp
  · cases hl : flattenLoop input input with
    | none => rw [hl] at h; simp at h
    | some r =>
      rw [hl] at h
      simp only [Option.map_some', Option.some.injEq] at h
      subst h
      have h1 : (r.map srcOrigin).Sublist input := flattenLoop_origin_sublist hl
      have h2 : (r.map srcOrigin).Nodup := List.Nodup.sublist h1 hnd
      have h3 : r.Nodup := List.Nodup.of_map srcOrigin h2
      exact ((List.perm_insertionSort sourceLe r).nodup_iff).mpr h3

/-- One key element is subsumed by a key: it is present itself, or (for
`Left c` / `Right c`) the key holds `Both c`. -/
def subsumesElem (T : List Source) (s : Source) : Prop :=
  s ∈ T ∨ ∃ c, (s = Source.Left c ∨ s = Source.Right c) ∧ Source.Both c ∈ T

/-- `subsumes T S`: key `T` subsumes key `S` under the normalization order:
`[Root]` subsumes everything, and `Both c` subsumes `Left c` and `Right c`. -/
def subsumes (T S : List Source) : Prop :=
  T = [Source.Root] ∨ ∀ s ∈ S, subsumesElem T s

theorem flatten_subsumes {lS lT kS kT : List Source}
    (hsub : ∀ u, u ∈ lS → u ∈ lT)
    (hS : flatten lS = some kS) (hT : flatten lT = some kT) :
    subsumes kT kS := by
  by_cases hrootT : Source.Root ∈ lT
  · rw [flatten_root hrootT] at hT
    exact Or.inl (Option.some_inj.mp hT).symm
  · by_cases hrootS : Source.Root ∈ lS
    · exact absurd (hsub _ hrootS) hrootT
    · refine Or.inr (fun s hs => ?_)
      have hmemS := (flatten_mem hS hrootS s).mp hs
      rcases s with _ | c | c | c
      · exact hmemS.elim
      · obtain ⟨h1, h2⟩ := hmemS
        by_cases hc : Source.Right c ∈ lT
        · exact Or.inr ⟨c, Or.inl rfl, (flatten_mem hT hrootT _).mpr ⟨hsub _ h1, hc⟩⟩
        · exact Or.inl ((flatten_mem hT hrootT _).mpr ⟨hsub _ h1, hc⟩)
      · obtain ⟨h1, h2⟩ := hmemS
        by_cases hc : Source.Left c ∈ lT
        · exact Or.inr ⟨c, Or.inr rfl, (flatten_mem hT hrootT _).mpr ⟨hc, hsub _ h1⟩⟩
        · exact Or.inl ((flatten_mem hT hrootT _).mpr ⟨hsub _ h1, hc⟩)
      · obtain ⟨h1, h2⟩ := hmemS
        exact Or.inl ((flatten_mem hT hrootT _).mpr ⟨hsub _ h1, hsub _ h2⟩)

/-- Sorting a multiset of sources by insertion sort; well defined because
`sourceLe` is a total antisymmetric order. -/
def msort (s : Multiset Source) : List Source :=
  Quot.liftOn s (fun l => l.insertionSort sourceLe) (fun l1 l2 h =>
    List.eq_of_perm_of_sorted
      ((List.perm_insertionSort sourceLe l1).trans
        (h.trans (List.perm_insertionSort sourceLe l2).symm))
      (List.sorted_insertionSort sourceLe l1)
      (List.sorted_insertionSort sourceLe l2))

/-- The ascending iteration order of a `BTreeSet<Source>`, modelled as the
sorted listing of a `Finset Source`. -/
def sortedList (s : Finset Source) : List Source :=
  msort s.1

theorem mem_msort {s : Multiset Source} {a : Source} :
    a ∈ msort s ↔ a ∈ s := by
  refine Quot.inductionOn s ?_
  intro l
  exact (List.perm_insertionSort sourceLe l).mem_iff

theorem msort_nodup {s : Multiset Source} (h : s.Nodup) : (msort s).Nodup := by
  revert h
  refine Quot.inductionOn s ?_
  intro l hl
  exact ((List.perm_insertionSort sourceLe l).nodup_iff).mpr hl

theorem mem_sortedList {s : Finset Source} {a : Source} :
    a ∈ sortedList s ↔ a ∈ s := by
  unfold sortedList
  rw [Finset.mem_def]
  exact mem_msort

theorem sortedList_nodup (s : Finset Source) : (sortedList s).Nodup :=
  msort_nodup s.2

/-- Lexicographic order on group keys (the derived `Ord` on `Vec<Source>`,
used as the `BTreeMap` key order). -/
def keyBle : List Source → List Source → Bool
  | [], _ => true
  | _ :: _, [] => false
  | a :: as, b :: bs => if a = b then keyBle as bs else decide (sourceLe a b)

def keyLe (k1 k2 : List Source) : Prop := keyBle k1 k2 = true

instance : DecidableRel keyLe := fun k1 k2 =>
  inferInstanceAs (Decidable (keyBle k1 k2 = true))

/-- The `BTreeMap<Vec<Source>, Vec<NodeIndex>>` of `Stage1::from`: the
distinct keys in ascending key order, each with the node indices carrying
that key in ascending node order (nodes are pushed while enumerating
`sources`). -/
def groupList (keys : List (List Source)) : List (List Source × List Nat) :=
  (keys.dedup.insertionSort keyLe).map
    (fun k => (k, (List.range keys.length).filter
      (fun n => decide (keys.getD n [] = k))))

/-- `Vec::collect` over an `Option`-producing map. -/
def mapO {α β : Type} (f : α → Option β) : List α → Option (List β)
  | [] => some []
  | a :: l => do
    let b ← f a
    let r ← mapO f l
    pure (b :: r)

/-- The inner loop of the group-index assignment in `Stage1::from`
(lines 133-139): for each node of a group, assert that its slot is still
unassigned (`assert_eq!(*v, None)`, modelled by `none` on failure) and store
the group index. -/
def assignNodes (gi : Nat) :
    List Nat → List (Option Nat) → Option (List (Option Nat))
  | [], gs => some gs
  | n :: rest, gs =>
    if h : n < gs.length then
      match gs.get ⟨n, h⟩ with
      | none => assignNodes gi rest (gs.set n (some gi))
      | some _ => none
    else none

/-- The outer loop of the group-index assignment: groups in map order,
numbered from 0. -/
def assignAll :
    List (List Source × List Nat) → Nat → List (Option Nat) →
      Option (List (Option Nat))
  | [], _, gs => some gs
  | g :: rest, gi, gs => do
    let gs2 ← assignNodes gi g.2 gs
    assignAll rest (gi + 1) gs2

/-- `Stage1::from(&Stage0)` (`stage1.rs` lines 113-159).  `fuel` bounds the
recursion depth of `recurse`; `none` models any panic (out-of-bounds index,
`flatten` panic, `assert_eq!` failure, `Option::unwrap` failure) or
non-termination of the traversal. -/
def Stage1.ofStage0 (t : Stage0) (fuel : Nat) : Option Stage1 := do
  let srcs ← nodeSources t fuel
  let keys ← mapO (fun s => flatten (sortedList s)) srcs
  let gl := groupList keys
  let gs ← assignAll gl 0 (List.replicate t.ops.length none)
  let gids ← mapO id gs
  pure { ops := t.ops.zip gids, root := t.root,
         groups := gl.map (fun p => { choices := p.1, nodes := p.2 }),
         num_choices := t.num_choices, vars := t.vars }

theorem mapO_length {α β : Type} {f : α → Option β} :
    ∀ {l : List α} {r : List β}, mapO f l = some r → r.length = l.length := by
  intro l
  induction l with
  | nil =>
    intro r h
    simp only [mapO, Option.some.injEq] at h
    subst h; rfl
  | cons a l ih =>
    intro r h
    simp only [mapO, Option.bind_eq_bind, Option.pure_def] at h
    rw [Option.bind_eq_some] at h
    obtain ⟨b, hb, h⟩ := h
    rw [Option.bind_eq_some] at h
    obtain ⟨rl, hrl, h⟩ := h
    simp only [Option.some.injEq] at h
    subst h
    simp [ih hrl]

theorem mapO_getD {α β : Type} {f : α → Option β} (d1 : α) (d2 : β) :
    ∀ {l : List α} {r : List β}, mapO f l = some r →
      ∀ i, i < l.length → f (l.getD i d1) = some (r.getD i d2) := by
  intro l
  induction l with
  | nil =>
    intro r h i hi
    simp at hi
  | cons a l ih =>
    intro r h i hi
    simp only [mapO, Option.bind_eq_bind, Option.pure_def] at h
    rw [Option.bind_eq_some] at h
    obtain ⟨b, hb, h⟩ := h
    rw [Option.bind_eq_some] at h
    obtain ⟨rl, hrl, h⟩ := h
    simp only [Option.some.injEq] at h
    subst h
    cases i with
    | zero => simpa using hb
    | succ i => simpa using ih hrl i (by simpa using hi)

theorem mapO_isSome {α β : Type} {f : α → Option β} :
    ∀ {l : List α}, (∀ a ∈ l, (f a).isSome) → ∃ r, mapO f l = some r := by
  intro l
  induction l with
  | nil =>
    intro h
    exact ⟨[], rfl⟩
  | cons a l ih =>
    intro h
    obtain ⟨b, hb⟩ := Option.isSome_iff_exists.mp (h a (by simp))
    obtain ⟨rl, hrl⟩ := ih (fun x hx => h x (by simp [hx]))
    exact ⟨b :: rl, by simp [mapO, hb, hrl]⟩

theorem groupList_mem_iff {keys : List (List Source)}
    {k : List Source} {ns : List Nat} (h : (k, ns) ∈ groupList keys) (n : Nat) :
    n ∈ ns ↔ n < keys.length ∧ keys.getD n [] = k := by
  unfold groupList at h
  obtain ⟨k', hk', heq⟩ := List.mem_map.mp h
  cases heq
  simp [List.mem_filter, List.mem_range]

theorem groupList_exists {keys : List (List Source)} {n : Nat}
    (h : n < keys.length) :
    ∃ ns, (keys.getD n [], ns) ∈ groupList keys ∧ n ∈ ns := by
  have hmem : keys.getD n [] ∈ keys := by
    rw [getD_eq_get _ _ h]
    exact List.get_mem _ _ _
  have h2 : keys.getD n [] ∈ keys.dedup.insertionSort keyLe :=
    (List.perm_insertionSort keyLe keys.dedup).mem_iff.mpr
      (List.mem_dedup.mpr hmem)
  refine ⟨(List.range keys.length).filter
    (fun m => decide (keys.getD m [] = keys.getD n [])), ?_, ?_⟩
  · unfold groupList
    exact List.mem_map.mpr ⟨keys.getD n [], h2, rfl⟩
  · simp [List.mem_filter, List.mem_range, h]

theorem groupList_fst_nodup (keys : List (List Source)) :
    ((groupList keys).map Prod.fst).Nodup := by
  unfold groupList
  rw [List.map_map]
  have h1 : ((keys.dedup.insertionSort keyLe).map
      (Prod.fst ∘ fun k => (k, (List.range keys.length).filter
        (fun n => decide (keys.getD n [] = k))))) =
      keys.dedup.insertionSort keyLe := by
    rw [show (Prod.fst ∘ fun k : List Source => (k, (List.range keys.length).filter
        (fun n => decide (keys.getD n [] = k)))) = id from rfl]
    exact List.map_id _
  rw [h1]
  exact ((List.perm_insertionSort keyLe keys.dedup).nodup_iff).mpr
    (List.nodup_dedup keys)

theorem groupList_pairwise_disjoint (keys : List (List Source)) :
    List.Pairwise (fun p q => ∀ n, n ∈ p.2 → n ∉ q.2) (groupList keys) := by
  have hnd := groupList_fst_nodup keys
  rw [List.Nodup, List.pairwise_map] at hnd
  refine hnd.imp_of_mem ?_
  intro p q hp hq hne n hnp hnq
  have e1 := (groupList_mem_iff hp n).mp hnp
  have e2 := (groupList_mem_iff hq n).mp hnq
  exact hne (e1.2.symm.trans e2.2)

theorem assignNodes_spec :
    ∀ (ns : List Nat) (gi : Nat) (gs : List (Option Nat)),
      (∀ n ∈ ns, n < gs.length ∧ gs.getD n none = none) → ns.Nodup →
      ∃ gs2, assignNodes gi ns gs = some gs2 ∧ gs2.length = gs.length ∧
        ∀ m, gs2.getD m none = if m ∈ ns then some gi else gs.getD m none := by
  intro ns
  induction ns with
  | nil =>
    intro gi gs hpre hnd
    exact ⟨gs, rfl, rfl, fun m => by simp⟩
  | cons n rest ih =>
    intro gi gs hpre hnd
    obtain ⟨hlt, hnone⟩ := hpre n (by simp)
    have hget : gs.get ⟨n, hlt⟩ = none := by
      rw [← getD_eq_get gs none hlt]
      exact hnone
    have hpre2 : ∀ m ∈ rest, m < (gs.set n (some gi)).length ∧
        (gs.set n (some gi)).getD m none = none := by
      intro m hm
      have hne : n ≠ m := by
        rintro rfl
        exact (List.nodup_cons.mp hnd).1 hm
      refine ⟨by rw [List.length_set]; exact (hpre m (by simp [hm])).1, ?_⟩
      rw [getD_set_ne _ _ _ hne]
      exact (hpre m (by simp [hm])).2
    obtain ⟨gs2, h1, h2, h3⟩ :=
      ih gi (gs.set n (some gi)) hpre2 (List.nodup_cons.mp hnd).2
    refine ⟨gs2, ?_, by rw [h2, List.length_set], ?_⟩
    · simp only [assignNodes]
      rw [dif_pos hlt, hget]
      exact h1
    · intro m
      rw [h3 m]
      by_cases hm : m ∈ rest
      · simp [hm]
      · rw [if_neg hm]
        by_cases hmn : m = n
        · subst hmn
          rw [getD_set_self _ _ _ hlt]
          simp
        · rw [getD_set_ne _ _ _ (fun hc => hmn hc.symm)]
          have hnot : ¬ m ∈ n :: rest := by simp [hmn, hm]
          rw [if_neg hnot]

theorem assignAll_spec :
    ∀ (gl : List (List Source × List Nat)) (gi : Nat) (gs : List (Option Nat)),
      (∀ p ∈ gl, (∀ n ∈ p.2, n < gs.length ∧ gs.getD n none = none) ∧
        p.2.Nodup) →
      List.Pairwise (fun p q => ∀ n, n ∈ p.2 → n ∉ q.2) gl →
      ∃ gs2, assignAll gl gi gs = some gs2 ∧ gs2.length = gs.length ∧
        ∀ m, ((∃ p ∈ gl, m ∈ p.2) ∨ (gs.getD m none).isSome →
          (gs2.getD m none).isSome) := by
  intro gl
  induction gl with
  | nil =>
    intro gi gs hpre hpw
    refine ⟨gs, rfl, rfl, ?_⟩
    intro m hm
    rcases hm with ⟨p, hp, _⟩ | hm
    · simp at hp
    · exact hm
  | cons g rest ih =>
    intro gi gs hpre hpw
    obtain ⟨hg, hgnd⟩ := hpre g (by simp)
    obtain ⟨gs1, h1, hlen1, hchar1⟩ := assignNodes_spec g.2 gi gs hg hgnd
    have hpw2 := List.pairwise_cons.mp hpw
    have hpre2 : ∀ p ∈ rest, (∀ n ∈ p.2, n < gs1.length ∧
        gs1.getD n none = none) ∧ p.2.Nodup := by
      intro p hp
      refine ⟨?_, (hpre p (by simp [hp])).2⟩
      intro n hn
      have hnotg : n ∉ g.2 := by
        intro hc
        exact (hpw2.1 p hp n hc) hn
      refine ⟨by rw [hlen1]; exact ((hpre p (by simp [hp])).1 n hn).1, ?_⟩
      rw [hchar1 n, if_neg hnotg]
      exact ((hpre p (by simp [hp])).1 n hn).2
    obtain ⟨gs2, h2, hlen2, hchar2⟩ := ih (gi + 1) gs1 hpre2 hpw2.2
    refine ⟨gs2, ?_, by rw [hlen2, hlen1], ?_⟩
    · simp only [assignAll, Option.bind_eq_bind, Option.pure_def]
      rw [h1]
      simp only [Option.some_bind]
      exact h2
    · intro m hm
      apply hchar2
      rcases hm with ⟨p, hp, hmp⟩ | hm
      · rcases List.mem_cons.mp hp with rfl | hp2
        · right
          rw [hchar1 m, if_pos hmp]
          rfl
        · exact Or.inl ⟨p, hp2, hmp⟩
      · right
        rw [hchar1 m]
        by_cases hmg : m ∈ g.2
        · rw [if_pos hmg]; rfl
        · rw [if_neg hmg]; exact hm

/-- Shared construction lemma: a successful source-collection run makes the
whole of `Stage1::from` succeed, and describes the computed keys and
groups. -/
theorem ofStage0_parts {t : Stage0} {fuel : Nat} {srcs : List (Finset Source)}
    (hsrc : nodeSources t fuel = some srcs) :
    ∃ s1 keys,
      mapO (fun s => flatten (sortedList s)) srcs = some keys ∧
      Stage1.ofStage0 t fuel = some s1 ∧
      keys.length = t.ops.length ∧
      (∀ n, n < t.ops.length →
        flatten (sortedList (srcs.getD n ∅)) = some (keys.getD n [])) ∧
      s1.groups = (groupList keys).map (fun p => Group.mk p.1 p.2) := by
  have hslen : srcs.length = t.ops.length := by
    have h := (recurse_mono hsrc).1
    simpa using h
  have hkeys_ex : ∀ s ∈ srcs, (flatten (sortedList s)).isSome := by
    intro s hs
    obtain ⟨i, hi⟩ := List.mem_iff_get.mp hs
    have hboth : ∀ c, Source.Both c ∉ sortedList s := by
      intro c hc
      rw [mem_sortedList] at hc
      have hreach : Reached t i (Source.Both c) := by
        apply (nodeSources_char hsrc i _).mp
        rw [getD_eq_get srcs ∅ i.isLt, hi]
        exact hc
      exact Reached_not_both hreach c rfl
    by_cases hroot : Source.Root ∈ sortedList s
    · rw [flatten_root hroot]; rfl
    · obtain ⟨o, ho⟩ := flatten_eq_some hroot hboth
      rw [ho]; rfl
  obtain ⟨keys, hkeys⟩ := mapO_isSome hkeys_ex
  have hklen : keys.length = t.ops.length := by rw [mapO_length hkeys, hslen]
  have hpernode : ∀ n, n < t.ops.length →
      flatten (sortedList (srcs.getD n ∅)) = some (keys.getD n []) := by
    intro n hn
    exact mapO_getD ∅ [] hkeys n (by rw [hslen]; exact hn)
  have hpre : ∀ p ∈ groupList keys,
      (∀ n ∈ p.2, n < (List.replicate t.ops.length (none : Option Nat)).length ∧
        (List.replicate t.ops.length (none : Option Nat)).getD n none = none) ∧
      p.2.Nodup := by
    intro p hp
    constructor
    · intro n hn
      have hmem := (groupList_mem_iff hp n).mp hn
      refine ⟨?_, getD_replicate none⟩
      rw [List.length_replicate, ← hklen]
      exact hmem.1
    · unfold groupList at hp
      obtain ⟨k', hk', heq⟩ := List.mem_map.mp hp
      cases heq
      exact List.Nodup.filter _ (List.nodup_range _)
  obtain ⟨gs2, hassign, hglen, hgprop⟩ :=
    assignAll_spec (groupList keys) 0 (List.replicate t.ops.length none) hpre
      (groupList_pairwise_disjoint keys)
  have hids_ex : ∀ o ∈ gs2, (id o).isSome := by
    intro o ho
    obtain ⟨i, hi⟩ := List.mem_iff_get.mp ho
    have hi_lt : (i : Nat) < t.ops.length := by
      have hrep : gs2.length = t.ops.length := by
        rw [hglen, List.length_replicate]
      have h3 := i.isLt
      omega
    have hkey_lt : (i : Nat) < keys.length := by rw [hklen]; exact hi_lt
    obtain ⟨ns, hns, hins⟩ := groupList_exists hkey_lt
    have h3 : (gs2.getD i none).isSome :=
      hgprop i (Or.inl ⟨(keys.getD i [], ns), hns, hins⟩)
    rw [getD_eq_get gs2 none i.isLt, hi] at h3
    exact h3
  obtain ⟨gids, hgids⟩ := mapO_isSome hids_ex
  refine ⟨{ ops := t.ops.zip gids, root := t.root,
            groups := (groupList keys).map (fun p => Group.mk p.1 p.2),
            num_choices := t.num_choices, vars := t.vars },
    keys, hkeys, ?_, hklen, hpernode, rfl⟩
  unfold Stage1.ofStage0
  rw [hsrc]
  simp only [Option.bind_eq_bind, Option.some_bind]
  rw [hkeys]
  simp only [Option.some_bind]
  rw [hassign]
  simp only [Option.some_bind]
  rw [hgids]
  simp only [Option.some_bind, Option.pure_def]

/-- A path in the Stage0 graph from `n` to `m` that passes through no
`min`/`max` node (edges out of choice nodes are excluded; `m` itself may be
a choice node). -/
inductive NCPath (t : Stage0) : Nat → Nat → Prop where
  | refl (n : Nat) : NCPath t n n
  | step (n ch m : Nat) (h : n < t.ops.length)
      (hop : (t.ops.get ⟨n, h⟩).choiceArgs = none)
      (hch : ch ∈ (t.ops.get ⟨n, h⟩).iter_children)
      (hp : NCPath t ch m) : NCPath t n m

theorem NCPath_rfrom {t : Stage0} {n m : Nat} (h : NCPath t n m)
    (s : Source) : RFrom t n s m s := by
  induction h with
  | refl n => exact RFrom.here n s
  | step n ch m hn hop hch hp ih => exact RFrom.child n s ch m s hn hop hch ih

theorem RFrom_trans {t : Stage0} {n1 : Nat} {s1 : Source} {n2 : Nat}
    {s2 : Source} (h1 : RFrom t n1 s1 n2 s2) :
    ∀ {n3 : Nat} {s3 : Source}, RFrom t n2 s2 n3 s3 → RFrom t n1 s1 n3 s3 := by
  induction h1 with
  | here n s =>
    intro n3 s3 h
    exact h
  | choiceLeft n s a b c m u hn hop hr ih =>
    intro n3 s3 h
    exact RFrom.choiceLeft n s a b c n3 s3 hn hop (ih h)
  | choiceRight n s a b c m u hn hop hr ih =>
    intro n3 s3 h
    exact RFrom.choiceRight n s a b c n3 s3 hn hop (ih h)
  | child n s ch m u hn hop hch hr ih =>
    intro n3 s3 h
    exact RFrom.child n s ch n3 s3 hn hop hch (ih h)

/-- Distinct positions in the built group list carry distinct choice keys. -/
theorem groups_choices_inj {keys : List (List Source)} {gi gj : Nat}
    {g g' : Group}
    (hgi : ((groupList keys).map (fun p => Group.mk p.1 p.2))[gi]? = some g)
    (hgj : ((groupList keys).map (fun p => Group.mk p.1 p.2))[gj]? = some g')
    (heq : g.choices = g'.choices) : gi = gj := by
  rw [List.getElem?_map] at hgi hgj
  obtain ⟨p, hp, hfp⟩ := Option.map_eq_some'.mp hgi
  obtain ⟨q, hq, hfq⟩ := Option.map_eq_some'.mp hgj
  obtain ⟨hplt, hpe⟩ := List.getElem?_eq_some.mp hp
  have hnd := groupList_fst_nodup keys
  refine List.getElem?_inj (by rw [List.length_map]; exact hplt) hnd ?_
  rw [List.getElem?_map, List.getElem?_map, hp, hq]
  have e1 : p.1 = g.choices := by rw [← hfp]
  have e2 : q.1 = g'.choices := by rw [← hfq]
  simp only [Option.map_some']
  rw [e1, e2, heq]

/-- Example graph: `min(x + y, x)` with choice index 0; root is node 3. -/
def exA : Stage0 :=
  { ops := [Op.var 0, Op.var 1, Op.binary 0 0 1, Op.min 2 0 0],
    root := 3, num_choices := 1, vars := ["x", "y"] }

/-- Example graph with an unreachable node: root is node 0, node 1 dangles. -/
def exB : Stage0 :=
  { ops := [Op.var 0, Op.var 1], root := 0, num_choices := 0,
    vars := ["x", "y"] }

/-- C1 counterexample: on the one-element source set `{Both 0}`, `flatten`
panics (`none`) instead of returning a normalized list, so the claim does
not hold for every finite set of `Source` values. -/
theorem flatten_both_panics :
    flatten (sortedList ({Source.Both 0} : Finset Source)) = none := by
  decide

/-- C1 (amended): `flatten` returns the one-element list `[Root]` whenever
`S` contains `Root`, regardless of the other elements (the `Root`
early-return comes first).  If `S` contains neither `Root` nor any `Both`
element, it returns a sorted, duplicate-free list in which each
`Left c`/`Right c` pair of `S` is replaced by `Both c` and a lone `Left c`
or `Right c` is kept as-is; the result never holds both `Left c` and
`Right c` for the same `c`, and never holds `Root`.  If `S` does not
contain `Root` but contains a `Both` element, `flatten` does not return a
list: it panics. -/
theorem flatten_normalizes (S : Finset Source) :
    (Source.Root ∈ S → flatten (sortedList S) = some [Source.Root]) ∧
    ((Source.Root ∉ S ∧ ∀ c, Source.Both c ∉ S) →
      ∃ out, flatten (sortedList S) = some out ∧
        out.Sorted sourceLe ∧ out.Nodup ∧ Source.Root ∉ out ∧
        (∀ c, (Source.Both c ∈ out ↔
                Source.Left c ∈ S ∧ Source.Right c ∈ S) ∧
              (Source.Left c ∈ out ↔
                Source.Left c ∈ S ∧ Source.Right c ∉ S) ∧
              (Source.Right c ∈ out ↔
                Source.Right c ∈ S ∧ Source.Left c ∉ S)) ∧
        (∀ c, ¬(Source.Left c ∈ out ∧ Source.Right c ∈ out))) ∧
    ((Source.Root ∉ S ∧ ∃ c, Source.Both c ∈ S) →
      flatten (sortedList S) = none) := by
  refine ⟨?_, ?_, ?_⟩
  · intro hroot
    exact flatten_root (mem_sortedList.mpr hroot)
  · rintro ⟨hroot, hboth⟩
    have hr2 : Source.Root ∉ sortedList S :=
      fun hc => hroot (mem_sortedList.mp hc)
    have hb2 : ∀ c, Source.Both c ∉ sortedList S :=
      fun c hc => hboth c (mem_sortedList.mp hc)
    obtain ⟨out, ho⟩ := flatten_eq_some hr2 hb2
    have hmem := flatten_mem ho hr2
    have hLR : ∀ c, ¬(Source.Left c ∈ out ∧ Source.Right c ∈ out) := by
      rintro c ⟨h1, h2⟩
      have e1 := (hmem (Source.Left c)).mp h1
      have e2 := (hmem (Source.Right c)).mp h2
      exact e1.2 e2.1
    refine ⟨out, ho, flatten_sorted ho,
      flatten_nodup ho (sortedList_nodup S),
      fun hc => ((hmem Source.Root).mp hc).elim, ?_, hLR⟩
    intro c
    refine ⟨?_, ?_, ?_⟩
    · rw [hmem (Source.Both c)]
      show Source.Left c ∈ sortedList S ∧ Source.Right c ∈ sortedList S ↔ _
      rw [mem_sortedList, mem_sortedList]
    · rw [hmem (Source.Left c)]
      show Source.Left c ∈ sortedList S ∧ Source.Right c ∉ sortedList S ↔ _
      rw [mem_sortedList]
      constructor
      · rintro ⟨u1, u2⟩
        exact ⟨u1, fun hc => u2 (mem_sortedList.mpr hc)⟩
      · rintro ⟨u1, u2⟩
        exact ⟨u1, fun hc => u2 (mem_sortedList.mp hc)⟩
    · rw [hmem (Source.Right c)]
      show Source.Right c ∈ sortedList S ∧ Source.Left c ∉ sortedList S ↔ _
      rw [mem_sortedList]
      constructor
      · rintro ⟨u1, u2⟩
        exact ⟨u1, fun hc => u2 (mem_sortedList.mpr hc)⟩
      · rintro ⟨u1, u2⟩
        exact ⟨u1, fun hc => u2 (mem_sortedList.mp hc)⟩
  · rintro ⟨hroot, c, hc⟩
    exact flatten_none_of_both (fun h2 => hroot (mem_sortedList.mp h2))
      (mem_sortedList.mpr hc)

theorem flatten_normalizes_witness :
    (Source.Root ∉ ({Source.Left 0, Source.Right 0} : Finset Source) ∧
      ∀ c, Source.Both c ∉ ({Source.Left 0, Source.Right 0} : Finset Source)) ∧
    (∃ out,
      flatten (sortedList ({Source.Left 0, Source.Right 0} : Finset Source)) =
        some out ∧ out = [Source.Both 0]) := by
  have hh : Source.Root ∉ ({Source.Left 0, Source.Right 0} : Finset Source) ∧
      ∀ c, Source.Both c ∉ ({Source.Left 0, Source.Right 0} : Finset Source) := by
    refine ⟨by decide, ?_⟩
    intro c
    simp
  obtain ⟨out, ho, _⟩ :=
    (flatten_normalizes {Source.Left 0, Source.Right 0}).2.1 hh
  have hval :
      flatten (sortedList ({Source.Left 0, Source.Right 0} : Finset Source)) =
        some [Source.Both 0] := by decide
  refine ⟨hh, out, ho, ?_⟩
  rw [ho] at hval
  exact Option.some_inj.mp hval

/-- C2: on every acyclic, in-bounds Stage0 graph, the source-collection
traversal from the root under `Root` computes, for each node, exactly the
set of sources under which the node is reached (`Reached`). -/
theorem recurse_collects_exactly (t : Stage0) (rank : Nat → Nat) (fuel : Nat)
    (hb : InBounds t) (hroot : t.root < t.ops.length)
    (hrk : DagRank t rank) (hf : rank t.root < fuel) :
    ∃ srcs, nodeSources t fuel = some srcs ∧
      ∀ n u, u ∈ srcs.getD n ∅ ↔ Reached t n u := by
  obtain ⟨srcs, hs⟩ :=
    recurse_total hb hrk fuel t.root Source.Root
      (List.replicate t.ops.length ∅) (by simp) hroot hf
  exact ⟨srcs, hs, fun n u => nodeSources_char hs n u⟩

theorem recurse_collects_exactly_witness :
    InBounds exA ∧ exA.root < exA.ops.length ∧ DagRank exA (fun n => n) ∧
    exA.root < 5 ∧
    (∃ srcs, nodeSources exA 5 = some srcs ∧
      ∀ n u, u ∈ srcs.getD n ∅ ↔ Reached exA n u) :=
  ⟨by decide, by decide, by decide, by decide,
    recurse_collects_exactly exA (fun n => n) 5 (by decide) (by decide)
      (by decide) (by decide)⟩

/-- C9: the source-collection traversal terminates (returns a result within
a finite fuel bound) on every Stage0 graph that is acyclic with in-bounds
operand indices, despite revisiting shared subexpressions. -/
theorem recurse_terminates_on_dags (t : Stage0) (rank : Nat → Nat)
    (fuel : Nat) (hb : InBounds t) (hroot : t.root < t.ops.length)
    (hrk : DagRank t rank) (hf : rank t.root < fuel) :
    (nodeSources t fuel).isSome := by
  obtain ⟨srcs, hs⟩ :=
    recurse_total hb hrk fuel t.root Source.Root
      (List.replicate t.ops.length ∅) (by simp) hroot hf
  unfold nodeSources
  rw [hs]
  rfl

theorem recurse_terminates_witness :
    InBounds exA ∧ exA.root < exA.ops.length ∧ DagRank exA (fun n => n) ∧
    exA.root < 5 ∧ (nodeSources exA 5).isSome :=
  ⟨by decide, by decide, by decide, by decide,
    recurse_terminates_on_dags exA (fun n => n) 5 (by decide) (by decide)
      (by decide) (by decide)⟩

/-- C3: on every well-formed (acyclic, in-bounds) Stage0 input, Stage1
construction succeeds — the unassigned-slot assertion never fires and the
per-node unwrap never panics — and every node, reachable or not, lies in
exactly one group. -/
theorem stage1_covers_every_node (t : Stage0) (rank : Nat → Nat) (fuel : Nat)
    (hb : InBounds t) (hroot : t.root < t.ops.length)
    (hrk : DagRank t rank) (hf : rank t.root < fuel) :
    ∃ s1, Stage1.ofStage0 t fuel = some s1 ∧
      ∀ n, n < t.ops.length →
        ∃! gi : Nat, ∃ g, s1.groups[gi]? = some g ∧ n ∈ g.nodes := by
  obtain ⟨srcs, hs⟩ :=
    recurse_total hb hrk fuel t.root Source.Root
      (List.replicate t.ops.length ∅) (by simp) hroot hf
  obtain ⟨s1, keys, hkeys, hs1, hklen, hpernode, hgroups⟩ := ofStage0_parts hs
  refine ⟨s1, hs1, ?_⟩
  intro n hn
  have hklt : n < keys.length := by rw [hklen]; exact hn
  obtain ⟨ns, hns, hins⟩ := groupList_exists hklt
  obtain ⟨j, hj⟩ := List.mem_iff_get.mp hns
  have hjget : s1.groups[(j : Nat)]? = some (Group.mk (keys.getD n []) ns) := by
    rw [hgroups, List.getElem?_map, List.getElem?_eq_getElem j.isLt]
    rw [List.get_eq_getElem] at hj
    rw [hj]
    rfl
  refine ⟨j, ⟨Group.mk (keys.getD n []) ns, hjget, hins⟩, ?_⟩
  rintro gi ⟨g, hgi, hmemg⟩
  rw [hgroups] at hgi
  have hgi2 := hgi
  rw [List.getElem?_map] at hgi2
  obtain ⟨p, hp, hfp⟩ := Option.map_eq_some'.mp hgi2
  obtain ⟨hplt, hpe⟩ := List.getElem?_eq_some.mp hp
  have hpmem : p ∈ groupList keys := by
    rw [← hpe]
    rw [← List.get_eq_getElem (groupList keys) ⟨gi, hplt⟩]
    exact List.get_mem _ _ _
  have hnodes : n ∈ p.2 := by
    have hg2 : g.nodes = p.2 := by rw [← hfp]
    rw [← hg2]
    exact hmemg
  have hkeyp : keys.getD n [] = p.1 := (groupList_mem_iff hpmem n).mp hnodes |>.2
  have hgc : g.choices = (Group.mk (keys.getD n []) ns).choices := by
    have hg1 : g.choices = p.1 := by rw [← hfp]
    rw [hg1, hkeyp]
  rw [hgroups] at hjget
  exact groups_choices_inj hgi hjget hgc

theorem stage1_covers_every_node_witness :
    InBounds exA ∧ exA.root < exA.ops.length ∧ DagRank exA (fun n => n) ∧
    exA.root < 5 ∧
    (∃ s1, Stage1.ofStage0 exA 5 = some s1 ∧
      ∀ n, n < exA.ops.length →
        ∃! gi : Nat, ∃ g, s1.groups[gi]? = some g ∧ n ∈ g.nodes) :=
  ⟨by decide, by decide, by decide, by decide,
    stage1_covers_every_node exA (fun n => n) 5 (by decide) (by decide)
      (by decide) (by decide)⟩

/-- C8: on every well-formed Stage0 input, the group containing the root
node has choices exactly `[Root]`. -/
theorem root_group_choices_is_root (t : Stage0) (rank : Nat → Nat)
    (fuel : Nat) (hb : InBounds t) (hroot : t.root < t.ops.length)
    (hrk : DagRank t rank) (hf : rank t.root < fuel) :
    ∃ s1, Stage1.ofStage0 t fuel = some s1 ∧
      (∃ g ∈ s1.groups, t.root ∈ g.nodes ∧ g.choices = [Source.Root]) ∧
      (∀ g ∈ s1.groups, t.root ∈ g.nodes → g.choices = [Source.Root]) := by
  obtain ⟨srcs, hs⟩ :=
    recurse_total hb hrk fuel t.root Source.Root
      (List.replicate t.ops.length ∅) (by simp) hroot hf
  obtain ⟨s1, keys, hkeys, hs1, hklen, hpernode, hgroups⟩ := ofStage0_parts hs
  have hrootmem : Source.Root ∈ srcs.getD t.root ∅ :=
    (nodeSources_char hs t.root Source.Root).mpr (RFrom.here t.root Source.Root)
  have hrootkey : keys.getD t.root [] = [Source.Root] := by
    have h1 := hpernode t.root hroot
    rw [flatten_root (mem_sortedList.mpr hrootmem)] at h1
    exact (Option.some_inj.mp h1).symm
  have hkroot_lt : t.root < keys.length := by rw [hklen]; exact hroot
  refine ⟨s1, hs1, ?_, ?_⟩
  · obtain ⟨ns, hns, hins⟩ := groupList_exists hkroot_lt
    refine ⟨Group.mk (keys.getD t.root []) ns, ?_, hins, by rw [hrootkey]⟩
    rw [hgroups]
    exact List.mem_map.mpr ⟨(keys.getD t.root [], ns), hns, rfl⟩
  · intro g hg hrootg
    rw [hgroups] at hg
    obtain ⟨p, hp, hfp⟩ := List.mem_map.mp hg
    have hnodes : t.root ∈ p.2 := by
      have hg2 : g.nodes = p.2 := by rw [← hfp]
      rw [← hg2]
      exact hrootg
    have hkeyp : keys.getD t.root [] = p.1 :=
      ((groupList_mem_iff hp t.root).mp hnodes).2
    have hg1 : g.choices = p.1 := by rw [← hfp]
    rw [hg1, ← hkeyp, hrootkey]

theorem root_group_choices_witness :
    InBounds exA ∧ exA.root < exA.ops.length ∧ DagRank exA (fun n => n) ∧
    exA.root < 5 ∧
    (∃ s1, Stage1.ofStage0 exA 5 = some s1 ∧
      (∃ g ∈ s1.groups, exA.root ∈ g.nodes ∧ g.choices = [Source.Root]) ∧
      (∀ g ∈ s1.groups, exA.root ∈ g.nodes → g.choices = [Source.Root])) :=
  ⟨by decide, by decide, by decide, by decide,
    root_group_choices_is_root exA (fun n => n) 5 (by decide) (by decide)
      (by decide) (by decide)⟩

/-- C10: Stage1 construction does not fail on nodes unreachable from the
root: their source sets are empty, normalize to the empty choices list, and
all such nodes land in the single group keyed by the empty list. -/
theorem unreachable_nodes_form_empty_group (t : Stage0) (rank : Nat → Nat)
    (fuel : Nat) (hb : InBounds t) (hroot : t.root < t.ops.length)
    (hrk : DagRank t rank) (hf : rank t.root < fuel) :
    ∃ s1, Stage1.ofStage0 t fuel = some s1 ∧
      (∀ n, n < t.ops.length → (∀ s, ¬ Reached t n s) →
        ∃ g ∈ s1.groups, g.choices = [] ∧ n ∈ g.nodes) ∧
      (∀ (gi gj : Nat) (g g' : Group), s1.groups[gi]? = some g →
        s1.groups[gj]? = some g' →
        g.choices = [] → g'.choices = [] → gi = gj) := by
  obtain ⟨srcs, hs⟩ :=
    recurse_total hb hrk fuel t.root Source.Root
      (List.replicate t.ops.length ∅) (by simp) hroot hf
  obtain ⟨s1, keys, hkeys, hs1, hklen, hpernode, hgroups⟩ := ofStage0_parts hs
  refine ⟨s1, hs1, ?_, ?_⟩
  · intro n hn hunreach
    have hempty : srcs.getD n ∅ = ∅ := by
      refine Finset.eq_empty_iff_forall_not_mem.mpr ?_
      intro u hu
      exact hunreach u ((nodeSources_char hs n u).mp hu)
    have hkey : keys.getD n [] = [] := by
      have h1 := hpernode n hn
      rw [hempty] at h1
      have h2 : flatten (sortedList (∅ : Finset Source)) = some [] := by decide
      rw [h2] at h1
      exact (Option.some_inj.mp h1).symm
    have hklt : n < keys.length := by rw [hklen]; exact hn
    obtain ⟨ns, hns, hins⟩ := groupList_exists hklt
    rw [hkey] at hns
    refine ⟨Group.mk [] ns, ?_, rfl, hins⟩
    rw [hgroups]
    exact List.mem_map.mpr ⟨([], ns), hns, rfl⟩
  · intro gi gj g g' hgi hgj hgc hgc'
    rw [hgroups] at hgi hgj
    exact groups_choices_inj hgi hgj (hgc.trans hgc'.symm)

theorem unreachable_nodes_witness :
    InBounds exB ∧ exB.root < exB.ops.length ∧ DagRank exB (fun n => n) ∧
    exB.root < 3 ∧ (∀ s, ¬ Reached exB 1 s) ∧
    (∃ s1, Stage1.ofStage0 exB 3 = some s1 ∧
      (∀ n, n < exB.ops.length → (∀ s, ¬ Reached exB n s) →
        ∃ g ∈ s1.groups, g.choices = [] ∧ n ∈ g.nodes) ∧
      (∀ (gi gj : Nat) (g g' : Group), s1.groups[gi]? = some g →
        s1.groups[gj]? = some g' →
        g.choices = [] → g'.choices = [] → gi = gj)) := by
  have hsrcs : nodeSources exB 3 = some [{Source.Root}, ∅] := by rfl
  refine ⟨by decide, by decide, by decide, by decide, ?_,
    unreachable_nodes_form_empty_group exB (fun n => n) 3 (by decide)
      (by decide) (by decide) (by decide)⟩
  intro s hr
  have h1 : s ∈ ([{Source.Root}, ∅] : List (Finset Source)).getD 1 ∅ :=
    (nodeSources_char hsrcs 1 s).mpr hr
  simp at h1

/-- C7: for a node `m` reachable from `n` without passing through a
`min`/`max` node, the normalized choices list of `m` subsumes that of `n`
under the normalization order (`[Root]` subsumes everything, `Both c`
subsumes `Left c` and `Right c`). -/
theorem choices_monotone_on_nonchoice_paths (t : Stage0) (fuel : Nat)
    (srcs : List (Finset Source)) (n m : Nat) (kn km : List Source)
    (hsrc : nodeSources t fuel = some srcs)
    (hpath : NCPath t n m)
    (hkn : flatten (sortedList (srcs.getD n ∅)) = some kn)
    (hkm : flatten (sortedList (srcs.getD m ∅)) = some km) :
    subsumes km kn := by
  refine flatten_subsumes ?_ hkn hkm
  intro u hu
  rw [mem_sortedList] at hu
  rw [mem_sortedList]
  have h1 : Reached t n u := (nodeSources_char hsrc n u).mp hu
  have h2 : RFrom t n u m u := NCPath_rfrom hpath u
  exact (nodeSources_char hsrc m u).mpr (RFrom_trans h1 h2)

theorem choices_monotone_witness :
    nodeSources exA 5 =
      some [{Source.Right 0, Source.Left 0}, {Source.Left 0},
            {Source.Left 0}, {Source.Root}] ∧
    NCPath exA 2 0 ∧
    flatten (sortedList
      (([{Source.Right 0, Source.Left 0}, {Source.Left 0},
         {Source.Left 0}, {Source.Root}] : List (Finset Source)).getD 2 ∅)) =
      some [Source.Left 0] ∧
    flatten (sortedList
      (([{Source.Right 0, Source.Left 0}, {Source.Left 0},
         {Source.Left 0}, {Source.Root}] : List (Finset Source)).getD 0 ∅)) =
      some [Source.Both 0] ∧
    subsumes [Source.Both 0] [Source.Left 0] := by
  have hsrc : nodeSources exA 5 =
      some [{Source.Right 0, Source.Left 0}, {Source.Left 0},
            {Source.Left 0}, {Source.Root}] := by rfl
  have hpath : NCPath exA 2 0 :=
    NCPath.step 2 0 0 (by decide) (by decide) (by decide) (NCPath.refl 0)
  refine ⟨hsrc, hpath, by decide, by decide, ?_⟩
  exact choices_monotone_on_nonchoice_paths exA 5 _ 2 0 _ _ hsrc hpath
    (by decide) (by decide)

/-- Modelled from the spec (`cell.rs` is not among the sources): one cell of
the octree.  Leaf payloads (vertex position, hermite data) are opaque
naturals; `Branch` carries an index and a thread id stored as a `u8`. -/
inductive Cell where
  | Invalid
  | Empty
  | Full
  | Leaf (pos : Nat) (hermite : Nat)
  | Branch (index : Nat) (thread : Nat)
deriving DecidableEq

/-- Modelled from the spec: a cell index `(index, depth, bounds)`; the
bounds play no role in the recorded control flow and are omitted.
`CellIndex::default()` is the root: index 0 at depth 0. -/
structure CellIndex where
  index : Nat
  depth : Nat
deriving DecidableEq

def CellIndex.default : CellIndex := { index := 0, depth := 0 }

/-- `TaskData` from `worker.rs`: the parent cell, the thread in which the
parent cell lives, and the optional parent chain (`next :
Option<Arc<TaskData>>`; the `None`/`Some` cases are fused into the `root` /
`child` constructors, exposed by the `next` accessor below).  The `eval`
field (the evaluator tape) does not affect the recorded control flow and is
omitted. -/
inductive TaskData where
  | root (parent : CellIndex) (source : Nat)
  | child (parent : CellIndex) (source : Nat) (next : TaskData)
deriving DecidableEq

def TaskData.parent : TaskData → CellIndex
  | .root p _ => p
  | .child p _ _ => p

def TaskData.source : TaskData → Nat
  | .root _ s => s
  | .child _ s _ => s

def TaskData.next : TaskData → Option TaskData
  | .root _ _ => none
  | .child _ _ n => some n

/-- `Task::new` from `worker.rs` (lines 32-45): the root task is from
worker 0 with the default cell index and no parent chain. -/
def Task.new : TaskData := TaskData.root CellIndex.default 0

/-- `BranchResult` from the spec: the summary returned when the 8 sibling
cells of a cluster complete. -/
inductive BranchResult where
  | Empty
  | Full
  | Branch (index : Nat)
  | Leaf (pos : Nat) (hermite : Nat)
deriving DecidableEq

/-- Observable side effects of the worker control flow, in program order:
`ThreadContext::pushed`, a `Done` message sent on a friend's channel, and
`ThreadContext::wake_one`. -/
inductive Event where
  | pushed
  | sendDone (dest : Nat) (task : TaskData) (result : BranchResult)
      (source : Nat)
  | wakeOne (dest : Nat)
deriving DecidableEq

/-- The part of a `Worker` that the recorded control flow touches: thread
index, octree cell vector, leaf store, and the trace of context events and
sent messages. -/
structure Worker where
  thread_index : Nat
  cells : List Cell
  leafs : List (Nat × Nat)
  trace : List Event
deriving DecidableEq

/-- Modelled from the spec: `OctreeBuilder::record` writes a cell slot
exactly once, invariant-checking that the prior state was `Invalid`
(`none` models the panic). -/
def obRecord (cells : List Cell) (index : Nat) (cell : Cell) :
    Option (List Cell) :=
  if h : index < cells.length then
    if cells.get ⟨index, h⟩ = Cell.Invalid then some (cells.set index cell)
    else none
  else none

def Worker.octreeRecord (w : Worker) (index : Nat) (cell : Cell) :
    Option Worker :=
  (obRecord w.cells index cell).map (fun cs => { w with cells := cs })

/-- Modelled from the spec: `check_done(parent, base)` returns a summary iff
all 8 cells of the cluster at `base` are non-`Invalid`: `Empty` if all are
`Empty`, `Full` if all are `Full`, else `Branch base`.  (The leaf-collapse
heuristic of the mesh extractor is implementation-defined and out of
scope.) -/
def checkDone (cells : List Cell) (_parent : CellIndex) (base : Nat) :
    Option BranchResult :=
  let cluster := (List.range 8).map (fun i => cells.getD (base + i) Cell.Invalid)
  if cluster.all (fun c => decide (c ≠ Cell.Invalid)) then
    some (if cluster.all (fun c => decide (c = Cell.Empty)) then
            BranchResult.Empty
          else if cluster.all (fun c => decide (c = Cell.Full)) then
            BranchResult.Full
          else BranchResult.Branch base)
  else none

/-- Modelled from the spec: `record_leaf` allocates leaf storage and
returns a `Leaf` cell value. -/
def Worker.record_leaf (w : Worker) (pos hermite : Nat) : Worker × Cell :=
  ({ w with leafs := w.leafs ++ [(pos, hermite)] }, Cell.Leaf pos hermite)

/-- The `BranchResult → Cell` conversion at the head of `Worker::on_done`
(`worker.rs` lines 296-306): `Branch` stores the source thread as a `u8`
(`source as u8`, i.e. mod 256); `Leaf` is recorded locally via
`record_leaf`. -/
def Worker.convert (w : Worker) (result : BranchResult) (source : Nat) :
    Worker × Cell :=
  match result with
  | BranchResult.Empty => (w, Cell.Empty)
  | BranchResult.Full => (w, Cell.Full)
  | BranchResult.Branch index => (w, Cell.Branch index (source % 2 ^ 8))
  | BranchResult.Leaf pos hermite => Worker.record_leaf w pos hermite

/-- `Worker::record` (`worker.rs` lines 323-353): write the cell, check the
8-cluster at `index & !7`; on completion either handle the result directly
(when the task came from this thread) or send a `Done` message, with
`ctx.pushed()` before the send and `ctx.wake_one` after it.  The direct
branch inlines the body of `on_done` (the recursion is structural along the
task chain); `Worker.on_done` below is that body, and `record` equals the
Rust call-structure by `record_calls_on_done`. -/
def Worker.record : Worker → Nat → Cell → TaskData → Option Worker
  | w, index, cell, task =>
    match Worker.octreeRecord w index cell with
    | none => none
    | some w1 =>
      match checkDone w1.cells task.parent (index &&& (2 ^ 64 - 8)) with
      | none => some w1
      | some r =>
        if task.source = w1.thread_index then
          match task with
          | TaskData.child parent _ next =>
            Worker.record (Worker.convert w1 r w1.thread_index).1 parent.index
              (Worker.convert w1 r w1.thread_index).2 next
          | TaskData.root parent _ =>
            Worker.octreeRecord (Worker.convert w1 r w1.thread_index).1
              parent.index (Worker.convert w1 r w1.thread_index).2
        else
          some { w1 with trace := w1.trace ++
            [Event.pushed,
             Event.sendDone task.source task r w1.thread_index,
             Event.wakeOne task.source] }

/-- `Worker::on_done` (`worker.rs` lines 289-315): convert the result to a
cell, then recurse upward via `record` when the task has a `next` link, and
write directly otherwise (the root task has nowhere to go). -/
def Worker.on_done (w : Worker) (result : BranchResult) (task : TaskData)
    (source : Nat) : Option Worker :=
  match task with
  | TaskData.child parent _ next =>
    Worker.record (Worker.convert w result source).1 parent.index
      (Worker.convert w result source).2 next
  | TaskData.root parent _ =>
    Worker.octreeRecord (Worker.convert w result source).1 parent.index
      (Worker.convert w result source).2

/-- The complete-handling branch of `record` is exactly a call to
`on_done`. -/
theorem record_calls_on_done (w1 : Worker) (r : BranchResult)
    (task : TaskData) (ti : Nat) :
    (match task with
      | TaskData.child parent _ next =>
        Worker.record (Worker.convert w1 r ti).1 parent.index
          (Worker.convert w1 r ti).2 next
      | TaskData.root parent _ =>
        Worker.octreeRecord (Worker.convert w1 r ti).1
          parent.index (Worker.convert w1 r ti).2) =
      Worker.on_done w1 r task ti := by
  cases task <;> rfl

/-- `index & !7` on a 64-bit `usize` clears the low three bits. -/
theorem land_mask_eq {n : Nat} (h : n < 2 ^ 64) :
    n &&& (2 ^ 64 - 8) = 8 * (n / 8) := by
  apply Nat.eq_of_testBit_eq
  intro i
  rw [Nat.testBit_land]
  have hm : (2 ^ 64 - 8 : Nat) = (2 ^ 61 - 1) <<< 3 := by
    rw [Nat.shiftLeft_eq, Nat.sub_mul, one_mul, ← pow_add]
  have hr : 8 * (n / 8) = (n >>> 3) <<< 3 := by
    rw [Nat.shiftRight_eq_div_pow, Nat.shiftLeft_eq]
    have h8 : (2 : Nat) ^ 3 = 8 := rfl
    rw [h8]
    omega
  rw [hm, hr, Nat.testBit_shiftLeft, Nat.testBit_shiftLeft,
    Nat.testBit_shiftRight, Nat.testBit_two_pow_sub_one]
  by_cases h3 : 3 ≤ i
  · have h4 : 3 + (i - 3) = i := by omega
    rw [h4]
    by_cases h64 : i < 64
    · have h61 : i - 3 < 61 := by omega
      simp [h3, h61, ge_iff_le]
    · have hfalse : n.testBit i = false :=
        Nat.testBit_lt_two_pow
          (lt_of_lt_of_le h (Nat.pow_le_pow_right (by norm_num) (by omega)))
      simp [hfalse]
  · simp [h3, ge_iff_le]

/-- C4: after a successful cell write, `record` checks the 8-cluster at
`index & !7` (the index with its low three bits cleared); if the check has
no result it returns the written state unchanged; on a result `r` it calls
`on_done` directly when the task's source thread is this worker's own
thread, and otherwise appends `pushed`, the `Done{task, r, this thread}`
message to the source thread's channel and `wake_one(task.source)`, in that
order. -/
theorem record_follows_spec (w w1 : Worker) (index : Nat) (cell : Cell)
    (task : TaskData) (hidx : index < 2 ^ 64)
    (hw : Worker.octreeRecord w index cell = some w1) :
    (checkDone w1.cells task.parent (8 * (index / 8)) = none →
      Worker.record w index cell task = some w1) ∧
    (∀ r, checkDone w1.cells task.parent (8 * (index / 8)) = some r →
      task.source = w.thread_index →
      Worker.record w index cell task =
        Worker.on_done w1 r task w.thread_index) ∧
    (∀ r, checkDone w1.cells task.parent (8 * (index / 8)) = some r →
      task.source ≠ w.thread_index →
      Worker.record w index cell task =
        some { w1 with trace := w1.trace ++
          [Event.pushed, Event.sendDone task.source task r w.thread_index,
           Event.wakeOne task.source] }) := by
  have hthread : w1.thread_index = w.thread_index := by
    unfold Worker.octreeRecord at hw
    cases hob : obRecord w.cells index cell with
    | none => rw [hob] at hw; simp at hw
    | some cs =>
      rw [hob] at hw
      simp only [Option.map_some', Option.some.injEq] at hw
      rw [← hw]
  have hmask := land_mask_eq hidx
  have hbody : Worker.record w index cell task =
      match checkDone w1.cells task.parent (8 * (index / 8)) with
      | none => some w1
      | some r =>
        if task.source = w1.thread_index then
          match task with
          | TaskData.child parent _ next =>
            Worker.record (Worker.convert w1 r w1.thread_index).1 parent.index
              (Worker.convert w1 r w1.thread_index).2 next
          | TaskData.root parent _ =>
            Worker.octreeRecord (Worker.convert w1 r w1.thread_index).1
              parent.index (Worker.convert w1 r w1.thread_index).2
        else
          some { w1 with trace := w1.trace ++
            [Event.pushed,
             Event.sendDone task.source task r w1.thread_index,
             Event.wakeOne task.source] } := by
    rw [Worker.record, hw, hmask]
  refine ⟨?_, ?_, ?_⟩
  · intro hcd
    rw [hbody, hcd]
  · intro r hcd hsrc
    rw [hbody, hcd, hthread]
    cases task with
    | root parent src =>
      show (if (TaskData.root parent src).source = w.thread_index then
          Worker.octreeRecord (Worker.convert w1 r w.thread_index).1
            parent.index (Worker.convert w1 r w.thread_index).2
        else
          some { thread_index := w.thread_index, cells := w1.cells,
                 leafs := w1.leafs, trace := w1.trace ++
                   [Event.pushed,
                    Event.sendDone (TaskData.root parent src).source
                      (TaskData.root parent src) r w.thread_index,
                    Event.wakeOne (TaskData.root parent src).source] }) =
        Worker.on_done w1 r (TaskData.root parent src) w.thread_index
      rw [if_pos hsrc]
      rfl
    | child parent src next =>
      show (if (TaskData.child parent src next).source = w.thread_index then
          Worker.record (Worker.convert w1 r w.thread_index).1
            parent.index (Worker.convert w1 r w.thread_index).2 next
        else
          some { thread_index := w.thread_index, cells := w1.cells,
                 leafs := w1.leafs, trace := w1.trace ++
                   [Event.pushed,
                    Event.sendDone (TaskData.child parent src next).source
                      (TaskData.child parent src next) r w.thread_index,
                    Event.wakeOne (TaskData.child parent src next).source] }) =
        Worker.on_done w1 r (TaskData.child parent src next) w.thread_index
      rw [if_pos hsrc]
      rfl
  · intro r hcd hsrc
    rw [hbody, hcd, hthread]
    cases task with
    | root parent src =>
      show (if (TaskData.root parent src).source = w.thread_index then
          Worker.octreeRecord (Worker.convert w1 r w.thread_index).1
            parent.index (Worker.convert w1 r w.thread_index).2
        else
          some { thread_index := w.thread_index, cells := w1.cells,
                 leafs := w1.leafs, trace := w1.trace ++
                   [Event.pushed,
                    Event.sendDone (TaskData.root parent src).source
                      (TaskData.root parent src) r w.thread_index,
                    Event.wakeOne (TaskData.root parent src).source] }) =
        some { thread_index := w.thread_index, cells := w1.cells,
               leafs := w1.leafs, trace := w1.trace ++
                 [Event.pushed,
                  Event.sendDone (TaskData.root parent src).source
                    (TaskData.root parent src) r w.thread_index,
                  Event.wakeOne (TaskData.root parent src).source] }
      rw [if_neg hsrc]
    | child parent src next =>
      show (if (TaskData.child parent src next).source = w.thread_index then
          Worker.record (Worker.convert w1 r w.thread_index).1
            parent.index (Worker.convert w1 r w.thread_index).2 next
        else
          some { thread_index := w.thread_index, cells := w1.cells,
                 leafs := w1.leafs, trace := w1.trace ++
                   [Event.pushed,
                    Event.sendDone (TaskData.child parent src next).source
                      (TaskData.child parent src next) r w.thread_index,
                    Event.wakeOne (TaskData.child parent src next).source] }) =
        some { thread_index := w.thread_index, cells := w1.cells,
               leafs := w1.leafs, trace := w1.trace ++
                 [Event.pushed,
                  Event.sendDone (TaskData.child parent src next).source
                    (TaskData.child parent src next) r w.thread_index,
                  Event.wakeOne (TaskData.child parent src next).source] }
      rw [if_neg hsrc]

/-- Concrete worker for the C4 witness: seven completed cells and one
`Invalid` slot at index 7. -/
def wrcW : Worker :=
  { thread_index := 0,
    cells := [Cell.Empty, Cell.Empty, Cell.Empty, Cell.Empty, Cell.Empty,
              Cell.Empty, Cell.Empty, Cell.Invalid],
    leafs := [], trace := [] }

def wrcW1 : Worker :=
  { thread_index := 0,
    cells := [Cell.Empty, Cell.Empty, Cell.Empty, Cell.Empty, Cell.Empty,
              Cell.Empty, Cell.Empty, Cell.Empty],
    leafs := [], trace := [] }

def wrcTask : TaskData := TaskData.root { index := 0, depth := 0 } 1

theorem record_follows_spec_witness :
    (7 : Nat) < 2 ^ 64 ∧
    Worker.octreeRecord wrcW 7 Cell.Empty = some wrcW1 ∧
    checkDone wrcW1.cells wrcTask.parent (8 * (7 / 8)) =
      some BranchResult.Empty ∧
    wrcTask.source ≠ wrcW.thread_index ∧
    Worker.record wrcW 7 Cell.Empty wrcTask =
      some { wrcW1 with trace := wrcW1.trace ++
        [Event.pushed,
         Event.sendDone wrcTask.source wrcTask BranchResult.Empty
           wrcW.thread_index,
         Event.wakeOne wrcTask.source] } :=
  ⟨by decide, by decide, by decide, by decide,
    (record_follows_spec wrcW wrcW1 7 Cell.Empty wrcTask (by decide)
        (by decide)).2.2 BranchResult.Empty (by decide) (by decide)⟩

/-- Concrete worker and root task for the C5 counterexample. -/
def cexW : Worker :=
  { thread_index := 0, cells := [Cell.Invalid], leafs := [], trace := [] }

def cexTask : TaskData := TaskData.root { index := 0, depth := 0 } 0

/-- C5 counterexample: called with source thread 256, `on_done` converts
`Branch 5` to `Cell::Branch` carrying thread `0` — the `u8` cast of 256 —
not the source thread 256, so the cell does not carry the source thread as
claimed. -/
theorem on_done_truncates_thread :
    (Worker.on_done cexW (BranchResult.Branch 5) cexTask 256).map
        Worker.cells = some [Cell.Branch 5 0] ∧
    Cell.Branch 5 0 ≠ Cell.Branch 5 256 := by
  decide

/-- C5 (amended): `on_done` converts the `BranchResult` to a cell — `Empty`
to `Cell::Empty`, `Full` to `Cell::Full`, `Branch index` to `Cell::Branch`
carrying that index and the source thread reduced mod 256 (the `as u8`
cast), `Leaf` via a local `record_leaf` — and then calls `record`
recursively on the task's parent cell index with the `next` task when the
task has a next link, and otherwise writes the cell directly with no
further recursion. -/
theorem on_done_follows_spec (w : Worker) (result : BranchResult)
    (task : TaskData) (source : Nat) :
    Worker.on_done w result task source =
      (let p :=
        match result with
        | BranchResult.Empty => (w, Cell.Empty)
        | BranchResult.Full => (w, Cell.Full)
        | BranchResult.Branch index => (w, Cell.Branch index (source % 256))
        | BranchResult.Leaf pos hermite => Worker.record_leaf w pos hermite
       match task.next with
       | some next => Worker.record p.1 task.parent.index p.2 next
       | none => Worker.octreeRecord p.1 task.parent.index p.2) := by
  cases task <;> cases result <;> rfl

/-- `CellResult` from the spec: the result of `eval_cell`, with the
evaluator payload of `Recurse` abstracted away. -/
inductive CellResult where
  | Done (cell : Cell)
  | Recurse
deriving DecidableEq

/-- Modelled from the spec: `OctreeBuilder::new()` (worker 0) holds the
still-`Invalid` root cell. -/
def octreeBuilderNew : List Cell := [Cell.Invalid]

/-- Modelled from the spec: the scheduler's outcome (thread spawning, the
worker run loops and `Octree::merge` are abstracted): either worker 0's
octree is returned directly with no worker threads spawned, or the worker
threads are spawned with the given initial queue for worker 0 and their
octrees are merged after running to completion. -/
inductive SchedulerOutcome where
  | single (cells : List Cell)
  | spawned (queue0 : List TaskData) (w0cells : List Cell)
deriving DecidableEq

/-- The root dispatch of `Worker::scheduler` (`worker.rs` lines 170-199):
run `eval_cell` once on the root cell of worker 0's octree; on `Done(cell)`
record the cell at index 0 and return worker 0's octree; on `Recurse` push
the root task `Task::new` onto worker 0's queue and spawn the workers. -/
def schedulerStep (r : CellResult) : Option SchedulerOutcome :=
  match r with
  | CellResult.Done cell =>
    (obRecord octreeBuilderNew 0 cell).map
      (fun cs => SchedulerOutcome.single cs)
  | CellResult.Recurse =>
    some (SchedulerOutcome.spawned [Task.new] octreeBuilderNew)

/-- C6: `eval_cell` runs once on worker 0's root cell: a `Done(cell)`
result is recorded at index 0 of worker 0's octree, which is returned
without spawning worker threads; a `Recurse` result pushes a root task —
source thread 0, default parent cell index, no next link — onto worker 0's
queue, after which the worker threads run and their octrees are merged. -/
theorem scheduler_root_dispatch :
    (∀ cell, schedulerStep (CellResult.Done cell) =
      some (SchedulerOutcome.single [cell])) ∧
    schedulerStep CellResult.Recurse =
      some (SchedulerOutcome.spawned [Task.new] octreeBuilderNew) ∧
    Task.new.source = 0 ∧ Task.new.parent = CellIndex.default ∧
    Task.new.next = none := by
  refine ⟨?_, rfl, rfl, rfl, rfl⟩
  intro cell
  rfl

end Fidget
